import Mathlib

/-!
# Verification of the COLMAP candidate image-pair generation subsystem
# and the closed-form triangulation utilities

This development shallowly embeds, in Lean 4, the parts of the repository
needed to settle the frozen claims:

* `src/colmap/feature/pairing.h` — the pairing-options structs (whose
  `CacheSize()` bodies are inline in the header) and the six
  `PairGenerator` strategies.  The strategy *implementations*
  (`pairing.cc`) are not part of the provided sources, only the header
  declarations; the generator behaviours are therefore modelled from the
  specification (each such definition carries a doc comment starting with
  `Modelled from the spec:`).
* `src/colmap/geometry/triangulation.cc` — the closed-form triangulation
  functions, embedded over `ℚ` with the external numeric kernels
  (Eigen's SVD / self-adjoint eigensolver / vector normalisation and the
  optimal-observation helpers from other translation units) abstracted
  as explicit function parameters.

Image ids (`image_t`, a 32-bit unsigned integer in the source) are
modelled as `ℕ`; an emitted pair is a `ℕ × ℕ`.
-/

/-- An emitted image pair `(a, b)` (`std::pair<image_t, image_t>`). -/
abbrev ImagePair := ℕ × ℕ

/-- Modelled from the spec: the canonical pair id is "a bijective,
order-independent encoding of `(min(a,b), max(a,b))` into one integer"
(the encoding itself lives in `Database::ImagePairToPairId`, outside the
provided sources).  We use the ordered pair `(min, max)` itself, which is
bijective on unordered pairs and order-independent. -/
def canonId (p : ImagePair) : ℕ × ℕ := (min p.1 p.2, max p.1 p.2)

/-! ## The `PairGenerator` contract

`class PairGenerator` exposes `Reset`, `HasFinished`, `Next` and the
derived `AllPairs` (reset, then drain until finished, concatenating).
We model a strategy as a deterministic state machine. -/

/-- The shared polymorphic `PairGenerator` contract over a state type. -/
structure PairGeneratorM (σ : Type) where
  Reset : σ → σ
  HasFinished : σ → Bool
  Next : σ → List ImagePair × σ

namespace PairGeneratorM

variable {σ : Type}

/-- Drain the generator: repeatedly call `Next` while `HasFinished` is
false, collecting the returned batches in order.  `fuel` bounds the
number of `Next` calls (the caller picks it large enough for the
strategy at hand). -/
def drainFrom (m : PairGeneratorM σ) : ℕ → σ → List (List ImagePair)
  | 0, _ => []
  | fuel + 1, s =>
    if m.HasFinished s then []
    else
      let r := m.Next s
      r.1 :: m.drainFrom fuel r.2

/-- The state after `k` calls to `Next` (discarding the batches). -/
def stateAfter (m : PairGeneratorM σ) : ℕ → σ → σ
  | 0, s => s
  | k + 1, s => m.stateAfter k (m.Next s).2

/-- `AllPairs()`: reset, drain, concatenate. -/
def AllPairs (m : PairGeneratorM σ) (fuel : ℕ) (s : σ) : List ImagePair :=
  (m.drainFrom fuel (m.Reset s)).flatten

end PairGeneratorM

/-! ## Replay-style generators

`ImportedPairGenerator` (`pair_idx_`), `SpatialPairGenerator`
(`current_idx_`), `TransitivePairGenerator`
(`current_batch_idx_`/`current_iteration_`), `SequentialPairGenerator`
(`image_idx_`) and `VocabTreePairGenerator` (`result_idx_`) all walk a
cursor over an emission schedule that is fully determined at
construction time by the options and the external corpus state.  We
capture this shared shape once: the state is the (immutable) schedule of
batches plus the cursor. -/

/-- State of a cursor-over-schedule pair generator. -/
structure ReplayState where
  sched : List (List ImagePair)
  idx : ℕ

/-- Modelled from the spec: the uniform `Reset`/`HasFinished`/`Next`
behaviour of the cursor-driven strategies (`pairing.cc` is not among the
provided sources).  `Reset` rewinds the cursor, `HasFinished` is true
once the cursor passed the end, and `Next` first checks `HasFinished`
and returns an empty batch in that case, otherwise emits the batch under
the cursor and advances it. -/
def replayGen : PairGeneratorM ReplayState where
  Reset s := { s with idx := 0 }
  HasFinished s := s.sched.length ≤ s.idx
  Next s :=
    if s.sched.length ≤ s.idx then ([], s)
    else (s.sched.getD s.idx [], { s with idx := s.idx + 1 })

namespace ReplayLemmas

open PairGeneratorM

theorem replay_drainFrom (fuel : ℕ) :
    ∀ (sch : List (List ImagePair)) (k : ℕ),
      replayGen.drainFrom fuel ⟨sch, k⟩ = (sch.drop k).take fuel := by
  induction fuel with
  | zero => intro sch k; simp [drainFrom]
  | succ n ih =>
    intro sch k
    by_cases h : sch.length ≤ k
    · simp [drainFrom, replayGen, h, List.drop_eq_nil_of_le h]
    · have h' : k < sch.length := Nat.lt_of_not_le h
      have hfin : replayGen.HasFinished ⟨sch, k⟩ = false := by
        simp [replayGen]; omega
      have hnext : replayGen.Next ⟨sch, k⟩ = (sch.getD k [], ⟨sch, k + 1⟩) := by
        simp [replayGen, h]
      simp only [drainFrom, hfin, Bool.false_eq_true, if_false, hnext]
      rw [ih sch (k + 1), List.drop_eq_getElem_cons h', List.take_succ_cons,
        List.getD_eq_getElem?_getD, List.getElem?_eq_getElem h']
      rfl

theorem replay_stateAfter_sched (k : ℕ) :
    ∀ s : ReplayState, (replayGen.stateAfter k s).sched = s.sched := by
  induction k with
  | zero => intro s; rfl
  | succ n ih =>
    intro s
    simp only [stateAfter]
    rw [ih]
    by_cases h : s.sched.length ≤ s.idx <;> simp [replayGen, h]

/-- Re-entrancy of every replay strategy: after any number of `Next`
calls, `Reset` restores exactly the initial cursor state, so a fresh
drain reproduces the first drain verbatim. -/
theorem replay_reentrant (s : ReplayState) (k fuel : ℕ) :
    replayGen.drainFrom fuel (replayGen.Reset (replayGen.stateAfter k s)) =
      replayGen.drainFrom fuel (replayGen.Reset s) := by
  have h := replay_stateAfter_sched k s
  show replayGen.drainFrom fuel ⟨(replayGen.stateAfter k s).sched, 0⟩ =
    replayGen.drainFrom fuel ⟨s.sched, 0⟩
  rw [h]

/-- A finished replay generator stays finished and keeps returning `[]`. -/
theorem replay_finished_next (s : ReplayState)
    (h : replayGen.HasFinished s = true) : replayGen.Next s = ([], s) := by
  have : s.sched.length ≤ s.idx := by simpa [replayGen] using h
  simp [replayGen, this]

/-- Every pair a replay generator ever emits comes from its schedule. -/
theorem replay_mem_sched {p : ImagePair} {fuel : ℕ} {s : ReplayState}
    (h : p ∈ (replayGen.drainFrom fuel s).flatten) : p ∈ s.sched.flatten := by
  obtain ⟨sch, k⟩ := s
  rw [replay_drainFrom] at h
  simp only [List.mem_flatten] at h ⊢
  obtain ⟨b, hb, hp⟩ := h
  exact ⟨b, List.drop_subset k sch (List.take_subset _ _ hb), hp⟩

end ReplayLemmas

/-! ## ExhaustivePairGenerator

Header state (`pairing.h:249-256`): `image_ids_`, `block_size_`,
`num_blocks_`, cursors `start_idx1_`, `start_idx2_`, and a batch buffer.
-/

/-- State of `ExhaustivePairGenerator` (field names follow the header). -/
structure ExhaustiveState where
  image_ids : List ℕ
  block_size : ℕ
  start_idx1 : ℕ
  start_idx2 : ℕ

/-- The index positions `[s, min (s + B) N)` of one block. -/
def exhaustiveBlockRange (N B s : ℕ) : List ℕ := List.range' s (min B (N - s))

/-- Modelled from the spec: the pairs of one block — "within a block,
only pairs with `idx1 < idx2` are emitted (diagonal and lower triangle
skipped …), pairs within a block in `(idx1,idx2)` lexicographic order". -/
def exhaustiveBatchIdx (N B s1 s2 : ℕ) : List (ℕ × ℕ) :=
  (exhaustiveBlockRange N B s1).flatMap fun i =>
    ((exhaustiveBlockRange N B s2).filter fun j => i < j).map fun j => (i, j)

/-- Modelled from the spec: `ExhaustivePairGenerator` "conceptually
tiling the N×N upper-triangular matrix into square blocks of side
`block_size`.  Two cursors `(start_idx1, start_idx2)` walk
block-by-block … `HasFinished()` is true once `start_idx1` has advanced
past the last block" (`pairing.cc` is not among the provided sources).
`Next` emits the current block's pairs (as image ids) and advances the
column cursor, wrapping to the next diagonal block at the end of a
block row; `Reset` rewinds both cursors. -/
def ExhaustivePairGen : PairGeneratorM ExhaustiveState where
  Reset s := { s with start_idx1 := 0, start_idx2 := 0 }
  HasFinished s := s.image_ids.length ≤ s.start_idx1
  Next s :=
    if s.image_ids.length ≤ s.start_idx1 then ([], s)
    else
      let batch :=
        (exhaustiveBatchIdx s.image_ids.length s.block_size s.start_idx1
            s.start_idx2).map
          fun p => (s.image_ids.getD p.1 0, s.image_ids.getD p.2 0)
      if s.image_ids.length ≤ s.start_idx2 + s.block_size then
        (batch, { s with start_idx1 := s.start_idx1 + s.block_size,
                         start_idx2 := s.start_idx1 + s.block_size })
      else
        (batch, { s with start_idx2 := s.start_idx2 + s.block_size })

/-- Initial generator state for a corpus. -/
def exhaustiveInit (ids : List ℕ) (B : ℕ) : ExhaustiveState := ⟨ids, B, 0, 0⟩

/-- Index-level mirror of the drain of `ExhaustivePairGen`. -/
def exhaustiveIdxDrain (N B : ℕ) : ℕ → ℕ → ℕ → List (List (ℕ × ℕ))
  | 0, _, _ => []
  | f + 1, s1, s2 =>
    if N ≤ s1 then []
    else
      exhaustiveBatchIdx N B s1 s2 ::
        (if N ≤ s2 + B then exhaustiveIdxDrain N B f (s1 + B) (s1 + B)
         else exhaustiveIdxDrain N B f s1 (s2 + B))

theorem exh_drain_eq (ids : List ℕ) (B : ℕ) :
    ∀ (f s1 s2 : ℕ),
      ExhaustivePairGen.drainFrom f ⟨ids, B, s1, s2⟩ =
        (exhaustiveIdxDrain ids.length B f s1 s2).map
          (List.map fun p => (ids.getD p.1 0, ids.getD p.2 0)) := by
  intro f
  induction f with
  | zero => intro s1 s2; rfl
  | succ n ih =>
    intro s1 s2
    by_cases h1 : ids.length ≤ s1
    · simp [PairGeneratorM.drainFrom, ExhaustivePairGen, exhaustiveIdxDrain, h1]
    · have hfin : ExhaustivePairGen.HasFinished ⟨ids, B, s1, s2⟩ = false := by
        simp [ExhaustivePairGen]; omega
      by_cases h2 : ids.length ≤ s2 + B
      · have hnext : ExhaustivePairGen.Next ⟨ids, B, s1, s2⟩ =
            ((exhaustiveBatchIdx ids.length B s1 s2).map
              (fun p => (ids.getD p.1 0, ids.getD p.2 0)),
             ⟨ids, B, s1 + B, s1 + B⟩) := by
          simp [ExhaustivePairGen, h1, h2]
        simp only [PairGeneratorM.drainFrom, hfin, Bool.false_eq_true, if_false,
          hnext, exhaustiveIdxDrain, h1, if_neg h1, if_pos h2, List.map_cons]
        rw [ih]
      · have hnext : ExhaustivePairGen.Next ⟨ids, B, s1, s2⟩ =
            ((exhaustiveBatchIdx ids.length B s1 s2).map
              (fun p => (ids.getD p.1 0, ids.getD p.2 0)),
             ⟨ids, B, s1, s2 + B⟩) := by
          simp [ExhaustivePairGen, h1, h2]
        simp only [PairGeneratorM.drainFrom, hfin, Bool.false_eq_true, if_false,
          hnext, exhaustiveIdxDrain, h1, if_neg h1, if_neg h2, List.map_cons]
        rw [ih]

theorem mem_exhaustiveBatchIdx {N B s1 s2 i j : ℕ} :
    (i, j) ∈ exhaustiveBatchIdx N B s1 s2 ↔
      s1 ≤ i ∧ i < s1 + B ∧ i < N ∧ s2 ≤ j ∧ j < s2 + B ∧ j < N ∧ i < j := by
  simp only [exhaustiveBatchIdx, exhaustiveBlockRange, List.mem_flatMap,
    List.mem_map, List.mem_filter, List.mem_range'_1, decide_eq_true_eq]
  constructor
  · rintro ⟨a, ⟨ha1, ha2⟩, ⟨b, ⟨⟨hb1, hb2⟩, hab⟩, hEq⟩⟩
    have hab' : a = i ∧ b = j := by simpa [Prod.ext_iff] using hEq
    obtain ⟨rfl, rfl⟩ := hab'
    omega
  · rintro ⟨h1, h2, h3, h4, h5, h6, h7⟩
    exact ⟨i, by omega, j, ⟨by omega, h7⟩, rfl⟩

/-- Fuel measure for the block walk (strictly decreasing at each step). -/
def exhMeasure (N s1 s2 : ℕ) : ℕ := (N - s1) * (N + 1) + (N - s2)

theorem exhMeasure_row {N B s1 : ℕ} (s2 : ℕ) (hB : 0 < B) (h1 : s1 < N) :
    exhMeasure N (s1 + B) (s1 + B) + 1 ≤ exhMeasure N s1 s2 := by
  unfold exhMeasure
  have hr : N - (s1 + B) + 1 ≤ N - s1 := by omega
  have h2 : (N - (s1 + B)) * (N + 1) + (N + 1) ≤ (N - s1) * (N + 1) := by
    calc (N - (s1 + B)) * (N + 1) + (N + 1) = (N - (s1 + B) + 1) * (N + 1) := by
          ring
      _ ≤ (N - s1) * (N + 1) := Nat.mul_le_mul_right _ hr
  have h3 : N - (s1 + B) ≤ N := Nat.sub_le _ _
  omega

theorem exhMeasure_col {N B s2 : ℕ} (s1 : ℕ) (hB : 0 < B) (h2 : s2 + B < N) :
    exhMeasure N s1 (s2 + B) + 1 ≤ exhMeasure N s1 s2 := by
  unfold exhMeasure
  omega

/-- Remaining-pair characterisation of the block walk: from cursor state
`(s1, s2)` the generator emits exactly the index pairs `i < j < N` with
`s1 ≤ i`, and `s2 ≤ j` for pairs whose row index still lies in the
current block row. -/
theorem exh_mem_flatten {N B : ℕ} (hB : 0 < B) :
    ∀ (f s1 s2 : ℕ), exhMeasure N s1 s2 ≤ f → ∀ i j : ℕ,
      ((i, j) ∈ (exhaustiveIdxDrain N B f s1 s2).flatten ↔
        (i < j ∧ j < N ∧ s1 ≤ i ∧ (i < s1 + B → s2 ≤ j))) := by
  intro f
  induction f with
  | zero =>
    intro s1 s2 hf i j
    have h0 : exhMeasure N s1 s2 = 0 := Nat.le_zero.mp hf
    have h1 : N ≤ s1 := by
      unfold exhMeasure at h0
      rcases Nat.mul_eq_zero.mp (by omega : (N - s1) * (N + 1) = 0) with h | h
      · omega
      · omega
    simp only [exhaustiveIdxDrain, List.flatten_nil, List.not_mem_nil,
      false_iff]
    omega
  | succ n ih =>
    intro s1 s2 hf i j
    by_cases h1 : N ≤ s1
    · simp only [exhaustiveIdxDrain, if_pos h1, List.flatten_nil,
        List.not_mem_nil, false_iff]
      omega
    · push_neg at h1
      by_cases h2 : N ≤ s2 + B
      · have hf' : exhMeasure N (s1 + B) (s1 + B) ≤ n := by
          have := exhMeasure_row s2 hB h1
          omega
        have hrest := ih (s1 + B) (s1 + B) hf' i j
        simp only [exhaustiveIdxDrain, if_neg (by omega : ¬ N ≤ s1),
          if_pos h2, List.flatten_cons, List.mem_append,
          mem_exhaustiveBatchIdx, hrest]
        omega
      · push_neg at h2
        have hf' : exhMeasure N s1 (s2 + B) ≤ n := by
          have := exhMeasure_col s1 hB h2
          omega
        have hrest := ih s1 (s2 + B) hf' i j
        simp only [exhaustiveIdxDrain, if_neg (by omega : ¬ N ≤ s1),
          if_neg (by omega : ¬ N ≤ s2 + B), List.flatten_cons,
          List.mem_append, mem_exhaustiveBatchIdx, hrest]
        omega

/-- Pairs paired by `flatMap` with a fixed first component per group are
nodup when the outer list and the inner lists are. -/
theorem nodup_flatMap_pairFst (xs : List ℕ) (f : ℕ → List ℕ)
    (hx : xs.Nodup) (hf : ∀ i ∈ xs, (f i).Nodup) :
    (xs.flatMap fun i => (f i).map fun j => (i, j)).Nodup := by
  induction xs with
  | nil => simp
  | cons a l ihl =>
    simp only [List.flatMap_cons, List.nodup_append]
    have hcons := List.nodup_cons.mp hx
    refine ⟨List.Nodup.map ?_ (hf a (List.mem_cons_self a l)), ?_, ?_⟩
    · intro x y hxy
      simpa using congrArg Prod.snd hxy
    · exact ihl hcons.2 fun i hi => hf i (List.mem_cons_of_mem a hi)
    · intro p hp hq
      simp only [List.mem_map] at hp
      obtain ⟨j, _, rfl⟩ := hp
      simp only [List.mem_flatMap, List.mem_map] at hq
      obtain ⟨b, hb, j', _, hj'⟩ := hq
      have hba : b = a := by exact congrArg Prod.fst hj'
      exact hcons.1 (hba ▸ hb)

/-- Same for a fixed second component per group. -/
theorem nodup_flatMap_pairSnd (xs : List ℕ) (f : ℕ → List ℕ)
    (hx : xs.Nodup) (hf : ∀ j ∈ xs, (f j).Nodup) :
    (xs.flatMap fun j => (f j).map fun i => (i, j)).Nodup := by
  induction xs with
  | nil => simp
  | cons a l ihl =>
    simp only [List.flatMap_cons, List.nodup_append]
    have hcons := List.nodup_cons.mp hx
    refine ⟨List.Nodup.map ?_ (hf a (List.mem_cons_self a l)), ?_, ?_⟩
    · intro x y hxy
      simpa using congrArg Prod.fst hxy
    · exact ihl hcons.2 fun i hi => hf i (List.mem_cons_of_mem a hi)
    · intro p hp hq
      simp only [List.mem_map] at hp
      obtain ⟨j, _, rfl⟩ := hp
      simp only [List.mem_flatMap, List.mem_map] at hq
      obtain ⟨b, hb, j', _, hj'⟩ := hq
      have hba : b = a := by exact congrArg Prod.snd hj'
      exact hcons.1 (hba ▸ hb)

/-- One block's pairs are nodup. -/
theorem nodup_exhaustiveBatchIdx (N B s1 s2 : ℕ) :
    (exhaustiveBatchIdx N B s1 s2).Nodup := by
  unfold exhaustiveBatchIdx
  refine nodup_flatMap_pairFst _ _ ?_ fun i _ => ?_
  · exact List.nodup_range' _ _
  · exact (List.nodup_range' _ _).filter _

/-- Pairwise property of a `flatMap` from groupwise and cross-group
pairwise properties. -/
theorem pairwise_flatMap {α β : Type} {R : β → β → Prop}
    (xs : List α) (f : α → List β)
    (h1 : ∀ x ∈ xs, (f x).Pairwise R)
    (h2 : xs.Pairwise fun x y => ∀ a ∈ f x, ∀ b ∈ f y, R a b) :
    (xs.flatMap f).Pairwise R := by
  induction xs with
  | nil => simp
  | cons a l ihl =>
    simp only [List.flatMap_cons, List.pairwise_append]
    have hc := List.pairwise_cons.mp h2
    refine ⟨h1 a (List.mem_cons_self a l),
      ihl (fun x hx => h1 x (List.mem_cons_of_mem a hx)) hc.2, ?_⟩
    intro x hx b hb
    simp only [List.mem_flatMap] at hb
    obtain ⟨y, hy, hby⟩ := hb
    exact hc.1 y hy x hx b hby

/-- Strict "block scan" order on index pairs: block rows in row-major
order, `(idx1, idx2)` lexicographic inside a block. -/
def blockLexLt (B : ℕ) (p q : ℕ × ℕ) : Prop :=
  p.1 / B < q.1 / B ∨
    (p.1 / B = q.1 / B ∧
      (p.2 / B < q.2 / B ∨
        (p.2 / B = q.2 / B ∧ (p.1 < q.1 ∨ (p.1 = q.1 ∧ p.2 < q.2)))))

/-- Inside one block, column-scan pairs are lexicographically sorted. -/
theorem pairwise_lex_exhaustiveBatchIdx (N B s1 s2 : ℕ) :
    (exhaustiveBatchIdx N B s1 s2).Pairwise
      (fun p q : ℕ × ℕ => p.1 < q.1 ∨ (p.1 = q.1 ∧ p.2 < q.2)) := by
  unfold exhaustiveBatchIdx
  refine pairwise_flatMap _ _ (fun i _ => ?_) ?_
  · rw [List.pairwise_map]
    refine List.Pairwise.filter _ ?_
    refine (List.pairwise_lt_range' _ _ 1 (by simp)).imp ?_
    intro a b hab
    exact Or.inr ⟨rfl, hab⟩
  · refine (List.pairwise_lt_range' _ _ 1 (by simp)).imp ?_
    intro a b hab p hp q hq
    simp only [List.mem_map] at hp hq
    obtain ⟨x, _, rfl⟩ := hp
    obtain ⟨y, _, rfl⟩ := hq
    exact Or.inl hab

/-- The full drain never emits a duplicate index pair. -/
theorem exh_nodup_flatten {N B : ℕ} (hB : 0 < B) :
    ∀ (f s1 s2 : ℕ), exhMeasure N s1 s2 ≤ f →
      ((exhaustiveIdxDrain N B f s1 s2).flatten).Nodup := by
  intro f
  induction f with
  | zero => intro s1 s2 _; simp [exhaustiveIdxDrain]
  | succ n ih =>
    intro s1 s2 hf
    by_cases h1 : N ≤ s1
    · simp [exhaustiveIdxDrain, h1]
    · push_neg at h1
      by_cases h2 : N ≤ s2 + B
      · have hf' : exhMeasure N (s1 + B) (s1 + B) ≤ n := by
          have := exhMeasure_row s2 hB h1
          omega
        simp only [exhaustiveIdxDrain, if_neg (by omega : ¬ N ≤ s1),
          if_pos h2, List.flatten_cons]
        refine List.nodup_append.mpr
          ⟨nodup_exhaustiveBatchIdx N B s1 s2, ih _ _ hf', ?_⟩
        rintro ⟨i, j⟩ hp hq
        rw [mem_exhaustiveBatchIdx] at hp
        rw [exh_mem_flatten hB n (s1 + B) (s1 + B) hf' i j] at hq
        omega
      · push_neg at h2
        have hf' : exhMeasure N s1 (s2 + B) ≤ n := by
          have := exhMeasure_col s1 hB h2
          omega
        simp only [exhaustiveIdxDrain, if_neg (by omega : ¬ N ≤ s1),
          if_neg (by omega : ¬ N ≤ s2 + B), List.flatten_cons]
        refine List.nodup_append.mpr
          ⟨nodup_exhaustiveBatchIdx N B s1 s2, ih _ _ hf', ?_⟩
        rintro ⟨i, j⟩ hp hq
        rw [mem_exhaustiveBatchIdx] at hp
        rw [exh_mem_flatten hB n s1 (s2 + B) hf' i j] at hq
        omega

theorem div_const_of_block {B a i : ℕ} (hB : 0 < B) (h1 : B * a ≤ i)
    (h2 : i < B * a + B) : i / B = a := by
  refine Nat.div_eq_of_lt_le ?_ ?_
  · rw [Nat.mul_comm]; exact h1
  · have h : (a + 1) * B = B * a + B := by ring
    omega

theorem le_div_of_mul_le {B k m : ℕ} (hB : 0 < B) (h : B * k ≤ m) :
    k ≤ m / B :=
  (Nat.le_div_iff_mul_le hB).mpr (by rw [Nat.mul_comm]; exact h)

/-- The full drain, started at the top-left block, is strictly sorted in
block-scan order: blocks in row-major order, `(idx1, idx2)`
lexicographically inside each block. -/
theorem exh_pairwise_flatten {N B : ℕ} (hB : 0 < B) :
    ∀ (f a b : ℕ), exhMeasure N (B * a) (B * b) ≤ f →
      ((exhaustiveIdxDrain N B f (B * a) (B * b)).flatten).Pairwise
        (blockLexLt B) := by
  intro f
  induction f with
  | zero => intro a b _; simp [exhaustiveIdxDrain]
  | succ n ih =>
    intro a b hf
    by_cases h1 : N ≤ B * a
    · simp [exhaustiveIdxDrain, h1]
    · push_neg at h1
      have hbatch : (exhaustiveBatchIdx N B (B * a) (B * b)).Pairwise
          (blockLexLt B) := by
        refine (pairwise_lex_exhaustiveBatchIdx N B (B * a) (B * b)).imp_of_mem
          ?_
        intro p q hp hq hlex
        rw [mem_exhaustiveBatchIdx] at hp hq
        have hp1 : p.1 / B = a := div_const_of_block hB hp.1 hp.2.1
        have hp2 : p.2 / B = b := div_const_of_block hB hp.2.2.2.1 hp.2.2.2.2.1
        have hq1 : q.1 / B = a := div_const_of_block hB hq.1 hq.2.1
        have hq2 : q.2 / B = b := div_const_of_block hB hq.2.2.2.1 hq.2.2.2.2.1
        exact Or.inr ⟨by omega, Or.inr ⟨by omega, hlex⟩⟩
      by_cases h2 : N ≤ B * b + B
      · have hrw : B * a + B = B * (a + 1) := by ring
        have hf' : exhMeasure N (B * (a + 1)) (B * (a + 1)) ≤ n := by
          have := exhMeasure_row (B * b) hB h1
          rw [hrw] at this
          omega
        simp only [exhaustiveIdxDrain, if_neg (by omega : ¬ N ≤ B * a),
          if_pos h2, List.flatten_cons, hrw]
        refine List.pairwise_append.mpr ⟨hbatch, ih (a + 1) (a + 1) hf', ?_⟩
        rintro ⟨i, j⟩ hp ⟨i', j'⟩ hq
        rw [mem_exhaustiveBatchIdx] at hp
        rw [exh_mem_flatten hB n (B * (a + 1)) (B * (a + 1)) hf' i' j'] at hq
        have hpi : i / B = a := div_const_of_block hB hp.1 hp.2.1
        have hqi : a + 1 ≤ i' / B := le_div_of_mul_le hB hq.2.2.1
        refine Or.inl ?_
        show i / B < i' / B
        omega
      · push_neg at h2
        have hrw : B * b + B = B * (b + 1) := by ring
        have hf' : exhMeasure N (B * a) (B * (b + 1)) ≤ n := by
          have := exhMeasure_col (B * a) hB h2
          rw [hrw] at this
          omega
        simp only [exhaustiveIdxDrain, if_neg (by omega : ¬ N ≤ B * a),
          if_neg (by omega : ¬ N ≤ B * b + B), List.flatten_cons]
        rw [hrw]
        refine List.pairwise_append.mpr ⟨hbatch, ih a (b + 1) hf', ?_⟩
        rintro ⟨i, j⟩ hp ⟨i', j'⟩ hq
        rw [mem_exhaustiveBatchIdx] at hp
        rw [exh_mem_flatten hB n (B * a) (B * (b + 1)) hf' i' j'] at hq
        have hpi : i / B = a := div_const_of_block hB hp.1 hp.2.1
        have hpj : j / B = b := div_const_of_block hB hp.2.2.2.1 hp.2.2.2.2.1
        by_cases hrow : i' < B * a + B
        · have hqi : i' / B = a := div_const_of_block hB hq.2.2.1 hrow
          have hqj : b + 1 ≤ j' / B := le_div_of_mul_le hB (hq.2.2.2 hrow)
          refine Or.inr ⟨?_, Or.inl ?_⟩
          · show i / B = i' / B
            omega
          · show j / B < j' / B
            omega
        · have hBa : B * (a + 1) = B * a + B := by ring
          have hqi : a + 1 ≤ i' / B := le_div_of_mul_le hB (by omega)
          refine Or.inl ?_
          show i / B < i' / B
          omega

/-- Reference enumeration of all index pairs `i < j < N`. -/
def upperPairs (N : ℕ) : List (ℕ × ℕ) :=
  (List.range N).flatMap fun j => (List.range j).map fun i => (i, j)

theorem mem_upperPairs {N i j : ℕ} :
    (i, j) ∈ upperPairs N ↔ i < j ∧ j < N := by
  simp only [upperPairs, List.mem_flatMap, List.mem_map, List.mem_range]
  constructor
  · rintro ⟨b, hb, a, ha, hEq⟩
    have hab : a = i ∧ b = j := by simpa [Prod.ext_iff] using hEq
    omega
  · rintro ⟨h1, h2⟩
    exact ⟨j, h2, i, h1, rfl⟩

theorem nodup_upperPairs (N : ℕ) : (upperPairs N).Nodup :=
  nodup_flatMap_pairSnd _ _ (List.nodup_range N) fun j _ => List.nodup_range j

theorem two_mul_length_upperPairs (N : ℕ) :
    2 * (upperPairs N).length = N * (N - 1) := by
  induction N with
  | zero => rfl
  | succ n ihn =>
    have hsplit : upperPairs (n + 1) =
        upperPairs n ++ (List.range n).map fun i => (i, n) := by
      unfold upperPairs
      rw [List.range_succ, List.flatMap_append]
      simp
    rw [hsplit, List.length_append, List.length_map, List.length_range]
    cases n with
    | zero => simp [upperPairs]
    | succ m =>
      have hgoal : (m + 1 + 1) * (m + 1 + 1 - 1) = (m + 1) * m + 2 * (m + 1) := by
        have h1 : m + 1 + 1 - 1 = m + 1 := rfl
        rw [h1]
        ring
      have ihn2 : 2 * (upperPairs (m + 1)).length = (m + 1) * m := by
        simpa using ihn
      omega

/-- Sufficient fuel to drain the whole block walk. -/
def exhaustiveFuel (N : ℕ) : ℕ := (N + 1) * (N + 1)

theorem exhaustiveFuel_adequate (N : ℕ) : exhMeasure N 0 0 ≤ exhaustiveFuel N := by
  unfold exhMeasure exhaustiveFuel
  simp only [Nat.sub_zero]
  have h : (N + 1) * (N + 1) = N * (N + 1) + N + 1 := by ring
  omega

/-- The index-level batches of one complete pass. -/
def exhaustiveRunIdx (N B : ℕ) : List (List (ℕ × ℕ)) :=
  exhaustiveIdxDrain N B (exhaustiveFuel N) 0 0

/-- One complete pass of `ExhaustivePairGenerator`: reset, then drain. -/
def exhaustiveRun (ids : List ℕ) (B : ℕ) : List (List ImagePair) :=
  ExhaustivePairGen.drainFrom (exhaustiveFuel ids.length)
    (ExhaustivePairGen.Reset (exhaustiveInit ids B))

theorem exhaustiveRun_eq_idx (ids : List ℕ) (B : ℕ) :
    exhaustiveRun ids B =
      (exhaustiveRunIdx ids.length B).map
        (List.map fun p => (ids.getD p.1 0, ids.getD p.2 0)) := by
  unfold exhaustiveRun exhaustiveRunIdx
  have h : ExhaustivePairGen.Reset (exhaustiveInit ids B) = ⟨ids, B, 0, 0⟩ :=
    rfl
  rw [h, exh_drain_eq]

/-- C1: draining `ExhaustivePairGenerator` (`Reset`, then `Next` until
`HasFinished`) over `N ≥ 2` distinct image ids emits exactly
`N*(N-1)/2` distinct unordered pairs; every emitted pair corresponds to
an index pair `idx1 < idx2`, each index pair `i < j < N` is emitted
exactly once, and the emission order is the row-major block scan with
`(idx1, idx2)` lexicographic order inside each block. -/
theorem C1_exhaustive_block_pass (ids : List ℕ) (B : ℕ) (hB : 0 < B)
    (hN : 2 ≤ ids.length) (hnd : ids.Nodup) :
    (∀ i j : ℕ, (i, j) ∈ (exhaustiveRunIdx ids.length B).flatten ↔
        i < j ∧ j < ids.length) ∧
    (exhaustiveRunIdx ids.length B).flatten.Nodup ∧
    (exhaustiveRunIdx ids.length B).flatten.Pairwise (blockLexLt B) ∧
    (exhaustiveRun ids B).flatten =
      (exhaustiveRunIdx ids.length B).flatten.map
        (fun p => (ids.getD p.1 0, ids.getD p.2 0)) ∧
    ((exhaustiveRun ids B).flatten.map canonId).Nodup ∧
    (exhaustiveRun ids B).flatten.length =
      ids.length * (ids.length - 1) / 2 ∧
    (∀ i j : ℕ, i < j → j < ids.length →
      (ids.getD i 0, ids.getD j 0) ∈ (exhaustiveRun ids B).flatten) := by
  have hfuel := exhaustiveFuel_adequate ids.length
  have hmem : ∀ i j : ℕ,
      (i, j) ∈ (exhaustiveRunIdx ids.length B).flatten ↔
        i < j ∧ j < ids.length := by
    intro i j
    rw [exhaustiveRunIdx,
      exh_mem_flatten hB (exhaustiveFuel ids.length) 0 0 hfuel i j]
    omega
  have hnd_idx : (exhaustiveRunIdx ids.length B).flatten.Nodup :=
    exh_nodup_flatten hB (exhaustiveFuel ids.length) 0 0 hfuel
  have hpw : (exhaustiveRunIdx ids.length B).flatten.Pairwise
      (blockLexLt B) := by
    have h00 := exh_pairwise_flatten hB (exhaustiveFuel ids.length) 0 0
      (by simpa using hfuel)
    simpa [exhaustiveRunIdx] using h00
  have hperm : ((exhaustiveRunIdx ids.length B).flatten).Perm
      (upperPairs ids.length) := by
    rw [List.perm_ext_iff_of_nodup hnd_idx (nodup_upperPairs _)]
    rintro ⟨i, j⟩
    rw [hmem i j, mem_upperPairs]
  have hmapeq : (exhaustiveRun ids B).flatten =
      (exhaustiveRunIdx ids.length B).flatten.map
        (fun p => (ids.getD p.1 0, ids.getD p.2 0)) := by
    rw [exhaustiveRun_eq_idx, List.map_flatten]
  refine ⟨hmem, hnd_idx, hpw, hmapeq, ?_, ?_, ?_⟩
  · rw [hmapeq, List.map_map]
    refine List.Nodup.map_on ?_ hnd_idx
    rintro ⟨i, j⟩ hp ⟨i', j'⟩ hq heq
    have hpm := (hmem i j).mp hp
    have hqm := (hmem i' j').mp hq
    have hi : i < ids.length := by omega
    have hj : j < ids.length := by omega
    have hi' : i' < ids.length := by omega
    have hj' : j' < ids.length := by omega
    simp only [Function.comp_apply, canonId, Prod.ext_iff] at heq
    rw [List.getD_eq_getElem ids 0 hi, List.getD_eq_getElem ids 0 hj,
      List.getD_eq_getElem ids 0 hi', List.getD_eq_getElem ids 0 hj'] at heq
    have hcases : (ids[i] = ids[i'] ∧ ids[j] = ids[j']) ∨
        (ids[i] = ids[j'] ∧ ids[j] = ids[i']) := by omega
    rcases hcases with ⟨h1, h2⟩ | ⟨h1, h2⟩
    · have e1 : i = i' := (hnd.getElem_inj_iff).mp h1
      have e2 : j = j' := (hnd.getElem_inj_iff).mp h2
      simp [Prod.ext_iff, e1, e2]
    · have e1 : i = j' := (hnd.getElem_inj_iff).mp h1
      have e2 : j = i' := (hnd.getElem_inj_iff).mp h2
      omega
  · rw [hmapeq, List.length_map, hperm.length_eq]
    have h2 := two_mul_length_upperPairs ids.length
    omega
  · intro i j hij hj
    rw [hmapeq]
    exact List.mem_map_of_mem _ ((hmem i j).mpr ⟨hij, hj⟩)

/-- Witness for C1 at the concrete corpus `[4, 7, 2]` with block size 2. -/
theorem C1_exhaustive_block_pass_witness :
    (0 < 2 ∧ 2 ≤ ([4, 7, 2] : List ℕ).length ∧ ([4, 7, 2] : List ℕ).Nodup) ∧
    ((∀ i j : ℕ, (i, j) ∈ (exhaustiveRunIdx ([4, 7, 2] : List ℕ).length 2).flatten ↔
        i < j ∧ j < ([4, 7, 2] : List ℕ).length) ∧
    (exhaustiveRunIdx ([4, 7, 2] : List ℕ).length 2).flatten.Nodup ∧
    (exhaustiveRunIdx ([4, 7, 2] : List ℕ).length 2).flatten.Pairwise (blockLexLt 2) ∧
    (exhaustiveRun ([4, 7, 2] : List ℕ) 2).flatten =
      (exhaustiveRunIdx ([4, 7, 2] : List ℕ).length 2).flatten.map
        (fun p => (([4, 7, 2] : List ℕ).getD p.1 0, ([4, 7, 2] : List ℕ).getD p.2 0)) ∧
    ((exhaustiveRun ([4, 7, 2] : List ℕ) 2).flatten.map canonId).Nodup ∧
    (exhaustiveRun ([4, 7, 2] : List ℕ) 2).flatten.length =
      ([4, 7, 2] : List ℕ).length * (([4, 7, 2] : List ℕ).length - 1) / 2 ∧
    (∀ i j : ℕ, i < j → j < ([4, 7, 2] : List ℕ).length →
      (([4, 7, 2] : List ℕ).getD i 0, ([4, 7, 2] : List ℕ).getD j 0) ∈
        (exhaustiveRun ([4, 7, 2] : List ℕ) 2).flatten)) :=
  ⟨⟨by decide, by decide, by decide⟩,
    C1_exhaustive_block_pass [4, 7, 2] 2 (by decide) (by decide) (by decide)⟩

/-! ## Pairing options (from `pairing.h`)

The `CacheSize()` bodies are inline in the header and are embedded
as-is.  C++ `int` fields that the algorithms consume as nonnegative
counts (all of them are validated as positive by `Check()` per the
error-handling design) are modelled as `ℕ`; fields whose defaults are
`-1` sentinels are modelled as `ℤ`.  `size_t` return values are `ℕ`. -/

/-- `struct ExhaustivePairingOptions` (`pairing.h:43-50`). -/
structure ExhaustivePairingOptions where
  block_size : ℕ := 50

/-- `inline size_t CacheSize() const { return block_size; }` -/
def ExhaustivePairingOptions.CacheSize (o : ExhaustivePairingOptions) : ℕ :=
  o.block_size

/-- `struct VocabTreePairingOptions` (`pairing.h:52-82`). -/
structure VocabTreePairingOptions where
  num_images : ℕ := 100
  num_nearest_neighbors : ℕ := 5
  num_checks : ℕ := 64
  num_images_after_verification : ℕ := 0
  max_num_features : ℤ := -1
  vocab_tree_path : String := "default-vocab-tree-uri"
  match_list_path : String := ""
  num_threads : ℤ := -1

/-- `inline size_t CacheSize() const { return 5 * num_images; }` -/
def VocabTreePairingOptions.CacheSize (o : VocabTreePairingOptions) : ℕ :=
  5 * o.num_images

/-- `struct SequentialPairingOptions` (`pairing.h:84-161`). -/
structure SequentialPairingOptions where
  overlap : ℕ := 10
  quadratic_overlap : Bool := true
  expand_rig_images : Bool := true
  loop_detection : Bool := false
  loop_detection_period : ℕ := 10
  loop_detection_num_images : ℕ := 50
  loop_detection_num_nearest_neighbors : ℕ := 1
  loop_detection_num_checks : ℕ := 64
  loop_detection_num_images_after_verification : ℕ := 0
  loop_detection_max_num_features : ℤ := -1
  num_threads : ℤ := -1
  vocab_tree_path : String := "default-vocab-tree-uri"

/-- `inline size_t CacheSize() const
    { return std::max(5 * loop_detection_num_images, 5 * overlap); }` -/
def SequentialPairingOptions.CacheSize (o : SequentialPairingOptions) : ℕ :=
  max (5 * o.loop_detection_num_images) (5 * o.overlap)

/-- Modelled from the spec: the `VocabTreeOptions()` sub-options derived
for embedded loop detection (`pairing.cc` is not among the provided
sources; the header only declares the accessor). -/
def SequentialPairingOptions.VocabTreeOptions (o : SequentialPairingOptions) :
    VocabTreePairingOptions where
  num_images := o.loop_detection_num_images
  num_nearest_neighbors := o.loop_detection_num_nearest_neighbors
  num_checks := o.loop_detection_num_checks
  num_images_after_verification :=
    o.loop_detection_num_images_after_verification
  max_num_features := o.loop_detection_max_num_features
  vocab_tree_path := o.vocab_tree_path
  match_list_path := ""
  num_threads := o.num_threads

/-- `struct SpatialPairingOptions` (`pairing.h:163-184`). -/
structure SpatialPairingOptions where
  ignore_z : Bool := true
  max_num_neighbors : ℕ := 50
  min_num_neighbors : ℕ := 0
  max_distance : ℤ := 100
  num_threads : ℤ := -1

/-- `inline size_t CacheSize() const { return 5 * max_num_neighbors; }` -/
def SpatialPairingOptions.CacheSize (o : SpatialPairingOptions) : ℕ :=
  5 * o.max_num_neighbors

/-- `struct TransitivePairingOptions` (`pairing.h:186-196`). -/
structure TransitivePairingOptions where
  batch_size : ℕ := 1000
  num_iterations : ℕ := 3

/-- `inline size_t CacheSize() const { return 2 * batch_size; }` -/
def TransitivePairingOptions.CacheSize (o : TransitivePairingOptions) : ℕ :=
  2 * o.batch_size

/-- `struct ImportedPairingOptions` (`pairing.h:198-208`). -/
structure ImportedPairingOptions where
  block_size : ℕ := 1225
  match_list_path : String := ""

/-- `inline size_t CacheSize() const { return block_size; }` -/
def ImportedPairingOptions.CacheSize (o : ImportedPairingOptions) : ℕ :=
  o.block_size

/-! ## Batching helper -/

/-- Split a list into consecutive chunks of `B` elements (the last chunk
may be shorter); empty for `B = 0`.  Structural recursion on a length
fuel so the definition reduces in the kernel. -/
def chunksOfAux {α : Type} (B : ℕ) : ℕ → List α → List (List α)
  | 0, _ => []
  | _ + 1, [] => []
  | n + 1, x :: xs =>
    if B = 0 then []
    else (x :: xs).take B :: chunksOfAux B n ((x :: xs).drop B)

/-- `chunksOf B l` splits `l` into consecutive `B`-sized batches. -/
def chunksOf {α : Type} (B : ℕ) (l : List α) : List (List α) :=
  chunksOfAux B l.length l

theorem flatten_chunksOfAux {α : Type} {B : ℕ} (hB : 0 < B) :
    ∀ (n : ℕ) (l : List α), l.length ≤ n →
      (chunksOfAux B n l).flatten = l := by
  intro n
  induction n with
  | zero =>
    intro l hl
    have hnil : l = [] := List.eq_nil_of_length_eq_zero (by omega)
    subst hnil
    rfl
  | succ n ih =>
    intro l hl
    match l with
    | [] => rfl
    | x :: xs =>
      rw [chunksOfAux, if_neg (by omega)]
      simp only [List.flatten_cons]
      have hlen : ((x :: xs).drop B).length = (x :: xs).length - B :=
        (x :: xs).length_drop B
      rw [ih ((x :: xs).drop B) (by simp at hlen hl ⊢; omega)]
      exact List.take_append_drop B (x :: xs)

theorem flatten_chunksOf {α : Type} {B : ℕ} (hB : 0 < B) (l : List α) :
    (chunksOf B l).flatten = l :=
  flatten_chunksOfAux hB l.length l le_rfl

theorem mem_flatten_chunksOfAux {α : Type} {B : ℕ} {p : α} :
    ∀ {n : ℕ} {l : List α}, p ∈ (chunksOfAux B n l).flatten → p ∈ l := by
  intro n
  induction n with
  | zero => intro l h; simp [chunksOfAux] at h
  | succ n ih =>
    intro l h
    match l with
    | [] => simp [chunksOfAux] at h
    | x :: xs =>
      rw [chunksOfAux] at h
      by_cases hB : B = 0
      · rw [if_pos hB] at h
        simp at h
      · rw [if_neg hB] at h
        simp only [List.flatten_cons, List.mem_append] at h
        rcases h with h | h
        · exact List.take_subset _ _ h
        · exact List.drop_subset _ _ (ih h)

theorem mem_flatten_chunksOf {α : Type} {B : ℕ} {l : List α} {p : α}
    (h : p ∈ (chunksOf B l).flatten) : p ∈ l :=
  mem_flatten_chunksOfAux h

/-- Insert into a `le`-sorted list (structural, kernel-reducible). -/
def insertSorted {α : Type} (le : α → α → Bool) (x : α) : List α → List α
  | [] => [x]
  | y :: ys => if le x y then x :: y :: ys else y :: insertSorted le x ys

/-- Insertion sort by a boolean `le` (structural, kernel-reducible). -/
def sortByLe {α : Type} (le : α → α → Bool) : List α → List α
  | [] => []
  | x :: xs => insertSorted le x (sortByLe le xs)

theorem length_insertSorted {α : Type} (le : α → α → Bool) (x : α) :
    ∀ l : List α, (insertSorted le x l).length = l.length + 1 := by
  intro l
  induction l with
  | nil => rfl
  | cons y ys ih =>
    by_cases h : le x y = true <;> simp [insertSorted, h, ih]

theorem length_sortByLe {α : Type} (le : α → α → Bool) :
    ∀ l : List α, (sortByLe le l).length = l.length := by
  intro l
  induction l with
  | nil => rfl
  | cons x xs ih => simp [sortByLe, length_insertSorted, ih]

theorem mem_insertSorted {α : Type} {le : α → α → Bool} {x a : α} :
    ∀ {l : List α}, a ∈ insertSorted le x l ↔ a = x ∨ a ∈ l := by
  intro l
  induction l with
  | nil => simp [insertSorted]
  | cons y ys ih =>
    by_cases h : le x y = true
    · simp only [insertSorted, if_pos h, List.mem_cons]
    · simp only [insertSorted, if_neg h, List.mem_cons, ih]
      tauto

theorem mem_sortByLe {α : Type} {le : α → α → Bool} {a : α} :
    ∀ {l : List α}, a ∈ sortByLe le l ↔ a ∈ l := by
  intro l
  induction l with
  | nil => simp [sortByLe]
  | cons x xs ih =>
    simp [sortByLe, mem_insertSorted, ih]

/-! ## ImportedPairGenerator -/

/-- Modelled from the spec: `ImportedPairGenerator` "replays the
resolved pairs in file order, batched by `block_size`"; name resolution
against the database happens at construction and is external, so the
model takes the already-resolved pair list as input (`pairing.cc` is not
among the provided sources). -/
def ImportedPairGenerator (opts : ImportedPairingOptions)
    (pairs : List ImagePair) : ReplayState :=
  ⟨chunksOf opts.block_size pairs, 0⟩

/-! ## VocabTreePairGenerator (consumer-visible behaviour)

The concurrent pipeline itself is treated separately (see the in-order
reassembly development further below); here we model what the consumer
observes per the spec: results are delivered strictly in submission
order, so the retrieval consumed at `result_idx_ = r` is the retrieval
of the `r`-th query image. -/

/-- Modelled from the spec: one retrieval's worth of pairs — the top
`num_images` visually most similar images (the external visual index
`retrieve` returns the deterministically ranked candidate list,
score ties already broken by ascending candidate id), with self-pairs
(`image_id == candidate`) filtered out, emitted as `(query, candidate)`
(`pairing.cc` is not among the provided sources). -/
def vocabRetrievalPairs (opts : VocabTreePairingOptions)
    (retrieve : ℕ → List ℕ) (q : ℕ) : List ImagePair :=
  (((retrieve q).take opts.num_images).filter fun c => c ≠ q).map
    fun c => (q, c)

/-- Modelled from the spec: `result_idx_` walks completed retrievals,
converting one retrieval's worth of pairs per `Next()` call. -/
def vocabSchedule (opts : VocabTreePairingOptions)
    (query_image_ids : List ℕ) (retrieve : ℕ → List ℕ) :
    List (List ImagePair) :=
  query_image_ids.map (vocabRetrievalPairs opts retrieve)

/-- Initial state of `VocabTreePairGenerator`. -/
def VocabTreePairGenerator (opts : VocabTreePairingOptions)
    (query_image_ids : List ℕ) (retrieve : ℕ → List ℕ) : ReplayState :=
  ⟨vocabSchedule opts query_image_ids retrieve, 0⟩

/-! ## SequentialPairGenerator -/

/-- Modelled from the spec: linear window — "for each image at position
`i`, emits pairs with images at positions `i+1 .. i+overlap`" (dropping
out-of-range positions). -/
def seqLinearPairs (ids : List ℕ) (overlap i : ℕ) : List ImagePair :=
  (List.range overlap).filterMap fun d =>
    if i + d + 1 < ids.length then
      some (ids.getD i 0, ids.getD (i + d + 1) 0)
    else none

/-- Modelled from the spec: quadratic window — "also emits pairs at
positions `i+2^1, i+2^2, …` up to the corpus end" (exponents up to the
corpus length are exhaustive since `2^k > k`). -/
def seqQuadraticPairs (ids : List ℕ) (i : ℕ) : List ImagePair :=
  (List.range ids.length).filterMap fun k =>
    if i + 2 ^ (k + 1) < ids.length then
      some (ids.getD i 0, ids.getD (i + 2 ^ (k + 1)) 0)
    else none

/-- Modelled from the spec and the header comment (`pairing.h:91-121`):
rig expansion pairs an image with the *other* images of its own frame
and with every image of the next `overlap` frames; images outside any
frame get no rig pairs.  The filter `y ≠ x` realises the spec invariant
that no emitted pair has equal endpoints. -/
def seqRigPairs (frames : List (List ℕ)) (overlap x : ℕ) :
    List ImagePair :=
  let fi := frames.findIdx fun fr => decide (x ∈ fr)
  if fi < frames.length then
    ((frames.getD fi [] ++
        (List.range overlap).flatMap fun d => frames.getD (fi + d + 1) []).filter
      fun y => y ≠ x).map fun y => (x, y)
  else []

/-- Modelled from the spec: "every `loop_detection_period`-th image
triggers an embedded one-shot query against an internally owned
`VocabTreePairGenerator` configured from the `VocabTreeOptions()`
derived sub-options". -/
def seqLoopDetectionPairs (opts : SequentialPairingOptions)
    (retrieve : ℕ → List ℕ) (x : ℕ) : List ImagePair :=
  vocabRetrievalPairs opts.VocabTreeOptions retrieve x

/-- Modelled from the spec: the batch emitted for the image at position
`i` of the ordered corpus (`image_idx_` cursor). -/
def seqBatch (opts : SequentialPairingOptions) (ids : List ℕ)
    (frames : List (List ℕ)) (retrieve : ℕ → List ℕ) (i : ℕ) :
    List ImagePair :=
  seqLinearPairs ids opts.overlap i ++
  (if opts.quadratic_overlap then seqQuadraticPairs ids i else []) ++
  (if opts.expand_rig_images then
      seqRigPairs frames opts.overlap (ids.getD i 0)
    else []) ++
  (if opts.loop_detection && (i % opts.loop_detection_period == 0) then
      seqLoopDetectionPairs opts retrieve (ids.getD i 0)
    else [])

/-- The per-image schedule of `SequentialPairGenerator`. -/
def sequentialSchedule (opts : SequentialPairingOptions) (ids : List ℕ)
    (frames : List (List ℕ)) (retrieve : ℕ → List ℕ) :
    List (List ImagePair) :=
  (List.range ids.length).map (seqBatch opts ids frames retrieve)

/-- Initial state of `SequentialPairGenerator`; `ids` is the output of
`GetOrderedImageIds()` and `frames` the ordered rig-frame grouping from
the database (empty when no rig metadata exists). -/
def SequentialPairGenerator (opts : SequentialPairingOptions)
    (ids : List ℕ) (frames : List (List ℕ)) (retrieve : ℕ → List ℕ) :
    ReplayState :=
  ⟨sequentialSchedule opts ids frames retrieve, 0⟩

/-! ## SpatialPairGenerator -/

/-- A position prior (2-D or 3-D location).  The C++ coordinates are
doubles; they are embedded over `ℤ` (floating point is outside the
decidable fragment, and the properties claimed about spatial pairing are
count-based, so only the ordered-field structure of the coordinates
matters). -/
abbrev Pos3 := ℤ × ℤ × ℤ

/-- Squared distance, optionally ignoring the Z component (`ignore_z`). -/
def effDistSq (ignore_z : Bool) (p q : Pos3) : ℤ :=
  (p.1 - q.1) * (p.1 - q.1) + (p.2.1 - q.2.1) * (p.2.1 - q.2.1) +
    (if ignore_z then 0 else (p.2.2 - q.2.2) * (p.2.2 - q.2.2))

/-- Images with a position prior, in corpus order ("images lacking a
position are excluded from spatial candidate generation"). -/
def positionedOf (prior : List (ℕ × Option Pos3)) : List (ℕ × Pos3) :=
  prior.filterMap fun x => x.2.map fun p => (x.1, p)

/-- `k = min(max_num_neighbors, num_positioned_images − 1)`. -/
def spatialKnn (opts : SpatialPairingOptions) (np : ℕ) : ℕ :=
  min opts.max_num_neighbors (np - 1)

/-- Modelled from the spec: the `k` nearest neighbours of positioned
image `i` (indices into the positioned list), "ascending squared
distance; ties broken by ascending candidate ImageId". -/
def spatialRanked (opts : SpatialPairingOptions)
    (positioned : List (ℕ × Pos3)) (i : ℕ) : List ℕ :=
  (sortByLe
    (fun c c' =>
      let dc := effDistSq opts.ignore_z (positioned.getD i default).2
        (positioned.getD c default).2
      let dc' := effDistSq opts.ignore_z (positioned.getD i default).2
        (positioned.getD c' default).2
      decide (dc < dc' ∨ (dc = dc' ∧
        (positioned.getD c default).1 ≤ (positioned.getD c' default).1)))
    ((List.range positioned.length).filter fun c => c ≠ i)).take
    (spatialKnn opts positioned.length)

/-- Modelled from the spec: "a neighbor is kept if its distance ≤
`max_distance`, with a floor guarantee: the closest `min_num_neighbors`
are always kept regardless of `max_distance`". -/
def spatialKept (opts : SpatialPairingOptions)
    (positioned : List (ℕ × Pos3)) (i : ℕ) : List ℕ :=
  ((spatialRanked opts positioned i).enum.filter fun rc =>
    decide (effDistSq opts.ignore_z (positioned.getD i default).2
        (positioned.getD rc.2 default).2 ≤
          opts.max_distance * opts.max_distance ∨
      rc.1 < opts.min_num_neighbors)).map Prod.snd

/-- "Emits one pair per (image, kept-neighbor)": the pairs of one
positioned image. -/
def spatialRow (opts : SpatialPairingOptions)
    (positioned : List (ℕ × Pos3)) (i : ℕ) : List ImagePair :=
  (spatialKept opts positioned i).map fun c =>
    ((positioned.getD i default).1, (positioned.getD c default).1)

/-- The per-image schedule of `SpatialPairGenerator` (`current_idx_`
walks one positioned image per `Next()`). -/
def spatialSchedule (opts : SpatialPairingOptions)
    (prior : List (ℕ × Option Pos3)) : List (List ImagePair) :=
  (List.range (positionedOf prior).length).map
    (spatialRow opts (positionedOf prior))

/-- Initial state of `SpatialPairGenerator`. -/
def SpatialPairGenerator (opts : SpatialPairingOptions)
    (prior : List (ℕ × Option Pos3)) : ReplayState :=
  ⟨spatialSchedule opts prior, 0⟩

/-! ## TransitivePairGenerator -/

/-- Both orientations of every known pair (the known pair set is an
undirected graph). -/
def orientedPairs (known : List ImagePair) : List ImagePair :=
  known.flatMap fun p => [p, (p.2, p.1)]

/-- The neighbours of `x` in the known-pair graph. -/
def neighborsOf (known : List ImagePair) (x : ℕ) : List ℕ :=
  (orientedPairs known).filterMap fun p =>
    if p.1 = x then some p.2 else none

/-- Modelled from the spec: the candidate pairs of one closure round —
"for every pair `(a,b)` already known, and every `c` such that `(b,c)`
is known, propose `(a,c)`". -/
def transitiveCandidates (known : List ImagePair) : List ImagePair :=
  (orientedPairs known).flatMap fun p =>
    (neighborsOf known p.2).map fun c => (p.1, c)

/-- Modelled from the spec: emit a candidate "if `a ≠ c` and its
canonical id has not already been emitted (hash-set membership check
against `image_pair_ids_`, updated on emission)".  Returns the emitted
pairs and the grown id set. -/
def transitiveScan (seen : List (ℕ × ℕ)) :
    List ImagePair → List ImagePair × List (ℕ × ℕ)
  | [] => ([], seen)
  | p :: rest =>
    if p.1 ≠ p.2 ∧ canonId p ∉ seen then
      let r := transitiveScan (canonId p :: seen) rest
      (p :: r.1, r.2)
    else transitiveScan seen rest

/-- Modelled from the spec: `num_iterations` rounds of transitive
closure; each round proposes candidates from the accumulated pair set
and emits the fresh ones, which join the graph for the next round. -/
def transitiveRoundsAux : ℕ → List ImagePair → List (ℕ × ℕ) →
    List (List ImagePair)
  | 0, _, _ => []
  | n + 1, known, seen =>
    let r := transitiveScan seen (transitiveCandidates known)
    r.1 :: transitiveRoundsAux n (known ++ r.1) r.2

/-- The per-round emissions, starting from the seed graph of previously
matched pairs with `image_pair_ids_` pre-seeded with their canonical
ids. -/
def transitiveRounds (seed : List ImagePair) (iterations : ℕ) :
    List (List ImagePair) :=
  transitiveRoundsAux iterations seed (seed.map canonId)

/-- Modelled from the spec: "Work is drained in fixed-size batches
(`batch_size`) to bound peak memory" — the rounds' emissions, chunked. -/
def transitiveSchedule (opts : TransitivePairingOptions)
    (seed : List ImagePair) : List (List ImagePair) :=
  (transitiveRounds seed opts.num_iterations).flatMap
    (chunksOf opts.batch_size)

/-- Initial state of `TransitivePairGenerator`; `seed` is the
previously-matched pair set fetched from the database/cache. -/
def TransitivePairGenerator (opts : TransitivePairingOptions)
    (seed : List ImagePair) : ReplayState :=
  ⟨transitiveSchedule opts seed, 0⟩

/-! ## C2 / C6: uniform contract properties -/

theorem exh_next_fields (s : ExhaustiveState) :
    (ExhaustivePairGen.Next s).2.image_ids = s.image_ids ∧
      (ExhaustivePairGen.Next s).2.block_size = s.block_size := by
  unfold ExhaustivePairGen
  by_cases h1 : s.image_ids.length ≤ s.start_idx1
  · simp [h1]
  · by_cases h2 : s.image_ids.length ≤ s.start_idx2 + s.block_size <;>
      simp [h1, h2]

theorem exh_stateAfter_fields (k : ℕ) :
    ∀ s : ExhaustiveState,
      (ExhaustivePairGen.stateAfter k s).image_ids = s.image_ids ∧
        (ExhaustivePairGen.stateAfter k s).block_size = s.block_size := by
  induction k with
  | zero => intro s; exact ⟨rfl, rfl⟩
  | succ n ih =>
    intro s
    have h1 := ih (ExhaustivePairGen.Next s).2
    have h2 := exh_next_fields s
    simp only [PairGeneratorM.stateAfter]
    exact ⟨h1.1.trans h2.1, h1.2.trans h2.2⟩

theorem exh_reset_eq (s s' : ExhaustiveState)
    (h1 : s.image_ids = s'.image_ids) (h2 : s.block_size = s'.block_size) :
    ExhaustivePairGen.Reset s = ExhaustivePairGen.Reset s' := by
  show ExhaustiveState.mk s.image_ids s.block_size 0 0 =
    ExhaustiveState.mk s'.image_ids s'.block_size 0 0
  rw [h1, h2]

theorem stateAfter_fixed {σ : Type} (m : PairGeneratorM σ) (s : σ)
    (h : m.Next s = ([], s)) : ∀ n, m.stateAfter n s = s := by
  intro n
  induction n with
  | zero => rfl
  | succ k ih =>
    show m.stateAfter k (m.Next s).2 = s
    rw [h]
    exact ih

/-- C2: every strategy is re-entrant — for fixed external state (corpus,
options, external retrieval/position/pair data), calling `Reset()` after
any number of `Next()` calls and draining again reproduces exactly the
first drained batch sequence, and two `AllPairs()` calls (which `Reset`
internally) return identical sequences.  The `VocabTreePairGenerator`
conjunct holds for every deterministic retrieval function, the worker
pool having been modelled as delivering results in submission order (see
the in-order reassembly theorem for C8). -/
theorem C2_all_strategies_reentrant :
    (∀ (opts : ExhaustivePairingOptions) (ids : List ℕ) (k fuel : ℕ),
      ExhaustivePairGen.drainFrom fuel (ExhaustivePairGen.Reset
          (ExhaustivePairGen.stateAfter k (exhaustiveInit ids opts.block_size))) =
        ExhaustivePairGen.drainFrom fuel
          (ExhaustivePairGen.Reset (exhaustiveInit ids opts.block_size)) ∧
      ExhaustivePairGen.AllPairs fuel
          (ExhaustivePairGen.stateAfter k (exhaustiveInit ids opts.block_size)) =
        ExhaustivePairGen.AllPairs fuel (exhaustiveInit ids opts.block_size)) ∧
    (∀ (opts : ImportedPairingOptions) (pairs : List ImagePair) (k fuel : ℕ),
      replayGen.drainFrom fuel (replayGen.Reset
          (replayGen.stateAfter k (ImportedPairGenerator opts pairs))) =
        replayGen.drainFrom fuel
          (replayGen.Reset (ImportedPairGenerator opts pairs)) ∧
      replayGen.AllPairs fuel
          (replayGen.stateAfter k (ImportedPairGenerator opts pairs)) =
        replayGen.AllPairs fuel (ImportedPairGenerator opts pairs)) ∧
    (∀ (opts : SpatialPairingOptions) (prior : List (ℕ × Option Pos3))
        (k fuel : ℕ),
      replayGen.drainFrom fuel (replayGen.Reset
          (replayGen.stateAfter k (SpatialPairGenerator opts prior))) =
        replayGen.drainFrom fuel
          (replayGen.Reset (SpatialPairGenerator opts prior)) ∧
      replayGen.AllPairs fuel
          (replayGen.stateAfter k (SpatialPairGenerator opts prior)) =
        replayGen.AllPairs fuel (SpatialPairGenerator opts prior)) ∧
    (∀ (opts : TransitivePairingOptions) (seed : List ImagePair) (k fuel : ℕ),
      replayGen.drainFrom fuel (replayGen.Reset
          (replayGen.stateAfter k (TransitivePairGenerator opts seed))) =
        replayGen.drainFrom fuel
          (replayGen.Reset (TransitivePairGenerator opts seed)) ∧
      replayGen.AllPairs fuel
          (replayGen.stateAfter k (TransitivePairGenerator opts seed)) =
        replayGen.AllPairs fuel (TransitivePairGenerator opts seed)) ∧
    (∀ (opts : VocabTreePairingOptions) (qs : List ℕ)
        (retrieve : ℕ → List ℕ) (k fuel : ℕ),
      replayGen.drainFrom fuel (replayGen.Reset
          (replayGen.stateAfter k (VocabTreePairGenerator opts qs retrieve))) =
        replayGen.drainFrom fuel
          (replayGen.Reset (VocabTreePairGenerator opts qs retrieve)) ∧
      replayGen.AllPairs fuel
          (replayGen.stateAfter k (VocabTreePairGenerator opts qs retrieve)) =
        replayGen.AllPairs fuel (VocabTreePairGenerator opts qs retrieve)) ∧
    (∀ (opts : SequentialPairingOptions) (ids : List ℕ)
        (frames : List (List ℕ)) (retrieve : ℕ → List ℕ) (k fuel : ℕ),
      replayGen.drainFrom fuel (replayGen.Reset
          (replayGen.stateAfter k
            (SequentialPairGenerator opts ids frames retrieve))) =
        replayGen.drainFrom fuel
          (replayGen.Reset (SequentialPairGenerator opts ids frames retrieve)) ∧
      replayGen.AllPairs fuel
          (replayGen.stateAfter k
            (SequentialPairGenerator opts ids frames retrieve)) =
        replayGen.AllPairs fuel
          (SequentialPairGenerator opts ids frames retrieve)) := by
  have hexh : ∀ (ids : List ℕ) (B k fuel : ℕ),
      ExhaustivePairGen.drainFrom fuel (ExhaustivePairGen.Reset
          (ExhaustivePairGen.stateAfter k (exhaustiveInit ids B))) =
        ExhaustivePairGen.drainFrom fuel
          (ExhaustivePairGen.Reset (exhaustiveInit ids B)) := by
    intro ids B k fuel
    have h := exh_stateAfter_fields k (exhaustiveInit ids B)
    rw [exh_reset_eq _ (exhaustiveInit ids B) h.1 h.2]
  have hrep : ∀ (s : ReplayState) (k fuel : ℕ),
      replayGen.AllPairs fuel (replayGen.stateAfter k s) =
        replayGen.AllPairs fuel s := by
    intro s k fuel
    unfold PairGeneratorM.AllPairs
    rw [ReplayLemmas.replay_reentrant]
  refine ⟨?_, ?_, ?_, ?_, ?_, ?_⟩
  · intro opts ids k fuel
    refine ⟨hexh ids opts.block_size k fuel, ?_⟩
    unfold PairGeneratorM.AllPairs
    rw [hexh ids opts.block_size k fuel]
  · exact fun opts pairs k fuel =>
      ⟨ReplayLemmas.replay_reentrant _ k fuel, hrep _ k fuel⟩
  · exact fun opts prior k fuel =>
      ⟨ReplayLemmas.replay_reentrant _ k fuel, hrep _ k fuel⟩
  · exact fun opts seed k fuel =>
      ⟨ReplayLemmas.replay_reentrant _ k fuel, hrep _ k fuel⟩
  · exact fun opts qs retrieve k fuel =>
      ⟨ReplayLemmas.replay_reentrant _ k fuel, hrep _ k fuel⟩
  · exact fun opts ids frames retrieve k fuel =>
      ⟨ReplayLemmas.replay_reentrant _ k fuel, hrep _ k fuel⟩

theorem exh_finished_next (s : ExhaustiveState)
    (h : ExhaustivePairGen.HasFinished s = true) :
    ExhaustivePairGen.Next s = ([], s) := by
  have h' : s.image_ids.length ≤ s.start_idx1 := by
    simpa [ExhaustivePairGen] using h
  simp [ExhaustivePairGen, h']

/-- C6: for every strategy, once `HasFinished()` is true every
subsequent `Next()` returns an empty batch (and leaves the state, hence
the finished flag, unchanged) — there is no error path.  The five
cursor-driven strategies are stated at every state reachable from their
initial state; the exhaustive strategy at every state. -/
theorem C6_finished_stays_empty :
    (∀ s : ExhaustiveState, ExhaustivePairGen.HasFinished s = true →
      ExhaustivePairGen.Next s = ([], s) ∧
        ∀ n, ExhaustivePairGen.stateAfter n s = s) ∧
    (∀ (opts : ImportedPairingOptions) (pairs : List ImagePair) (k : ℕ),
      replayGen.HasFinished
          (replayGen.stateAfter k (ImportedPairGenerator opts pairs)) = true →
      replayGen.Next
          (replayGen.stateAfter k (ImportedPairGenerator opts pairs)) =
        ([], replayGen.stateAfter k (ImportedPairGenerator opts pairs))) ∧
    (∀ (opts : SpatialPairingOptions) (prior : List (ℕ × Option Pos3)) (k : ℕ),
      replayGen.HasFinished
          (replayGen.stateAfter k (SpatialPairGenerator opts prior)) = true →
      replayGen.Next
          (replayGen.stateAfter k (SpatialPairGenerator opts prior)) =
        ([], replayGen.stateAfter k (SpatialPairGenerator opts prior))) ∧
    (∀ (opts : TransitivePairingOptions) (seed : List ImagePair) (k : ℕ),
      replayGen.HasFinished
          (replayGen.stateAfter k (TransitivePairGenerator opts seed)) = true →
      replayGen.Next
          (replayGen.stateAfter k (TransitivePairGenerator opts seed)) =
        ([], replayGen.stateAfter k (TransitivePairGenerator opts seed))) ∧
    (∀ (opts : VocabTreePairingOptions) (qs : List ℕ)
        (retrieve : ℕ → List ℕ) (k : ℕ),
      replayGen.HasFinished
          (replayGen.stateAfter k (VocabTreePairGenerator opts qs retrieve)) =
        true →
      replayGen.Next
          (replayGen.stateAfter k (VocabTreePairGenerator opts qs retrieve)) =
        ([], replayGen.stateAfter k (VocabTreePairGenerator opts qs retrieve))) ∧
    (∀ (opts : SequentialPairingOptions) (ids : List ℕ)
        (frames : List (List ℕ)) (retrieve : ℕ → List ℕ) (k : ℕ),
      replayGen.HasFinished (replayGen.stateAfter k
          (SequentialPairGenerator opts ids frames retrieve)) = true →
      replayGen.Next (replayGen.stateAfter k
          (SequentialPairGenerator opts ids frames retrieve)) =
        ([], replayGen.stateAfter k
          (SequentialPairGenerator opts ids frames retrieve))) := by
  refine ⟨?_, ?_, ?_, ?_, ?_, ?_⟩
  · intro s h
    exact ⟨exh_finished_next s h,
      stateAfter_fixed ExhaustivePairGen s (exh_finished_next s h)⟩
  · exact fun opts pairs k h => ReplayLemmas.replay_finished_next _ h
  · exact fun opts prior k h => ReplayLemmas.replay_finished_next _ h
  · exact fun opts seed k h => ReplayLemmas.replay_finished_next _ h
  · exact fun opts qs retrieve k h => ReplayLemmas.replay_finished_next _ h
  · exact fun opts ids frames retrieve k h =>
      ReplayLemmas.replay_finished_next _ h

/-- Witness for C6: a concrete finished `ExhaustivePairGenerator` state
and a concrete drained `ImportedPairGenerator` keep returning empty
batches. -/
theorem C6_finished_stays_empty_witness :
    (ExhaustivePairGen.HasFinished ⟨[1, 2], 1, 5, 5⟩ = true ∧
      ExhaustivePairGen.Next ⟨[1, 2], 1, 5, 5⟩ = ([], ⟨[1, 2], 1, 5, 5⟩) ∧
        ∀ n, ExhaustivePairGen.stateAfter n ⟨[1, 2], 1, 5, 5⟩ =
          ⟨[1, 2], 1, 5, 5⟩) ∧
    (replayGen.HasFinished (replayGen.stateAfter 3
        (ImportedPairGenerator ⟨1, ""⟩ [(1, 2)])) = true ∧
      replayGen.Next (replayGen.stateAfter 3
          (ImportedPairGenerator ⟨1, ""⟩ [(1, 2)])) =
        ([], replayGen.stateAfter 3 (ImportedPairGenerator ⟨1, ""⟩ [(1, 2)]))) :=
  ⟨⟨by decide, C6_finished_stays_empty.1 ⟨[1, 2], 1, 5, 5⟩ (by decide)⟩,
    ⟨by decide, C6_finished_stays_empty.2.1 ⟨1, ""⟩ [(1, 2)] 3 (by decide)⟩⟩

/-! ## C3: no self-pairs -/

theorem exh_idx_sound {N B : ℕ} :
    ∀ (f s1 s2 : ℕ) (p : ℕ × ℕ),
      p ∈ (exhaustiveIdxDrain N B f s1 s2).flatten →
        p.1 < p.2 ∧ p.2 < N := by
  intro f
  induction f with
  | zero => intro s1 s2 p hp; simp [exhaustiveIdxDrain] at hp
  | succ n ih =>
    intro s1 s2 p hp
    by_cases h1 : N ≤ s1
    · simp [exhaustiveIdxDrain, h1] at hp
    · rw [exhaustiveIdxDrain, if_neg h1] at hp
      by_cases h2 : N ≤ s2 + B
      · rw [if_pos h2] at hp
        simp only [List.flatten_cons, List.mem_append] at hp
        rcases hp with hp | hp
        · obtain ⟨i, j⟩ := p
          rw [mem_exhaustiveBatchIdx] at hp
          exact ⟨hp.2.2.2.2.2.2, hp.2.2.2.2.2.1⟩
        · exact ih _ _ p hp
      · rw [if_neg h2] at hp
        simp only [List.flatten_cons, List.mem_append] at hp
        rcases hp with hp | hp
        · obtain ⟨i, j⟩ := p
          rw [mem_exhaustiveBatchIdx] at hp
          exact ⟨hp.2.2.2.2.2.2, hp.2.2.2.2.2.1⟩
        · exact ih _ _ p hp

theorem positioned_ids_sublist (prior : List (ℕ × Option Pos3)) :
    ((positionedOf prior).map Prod.fst).Sublist (prior.map Prod.fst) := by
  induction prior with
  | nil => simp [positionedOf]
  | cons a rest ih =>
    obtain ⟨id, o⟩ := a
    cases o with
    | none =>
      simp only [positionedOf, List.filterMap_cons] at *
      exact ih.cons id
    | some p =>
      simp only [positionedOf, List.filterMap_cons] at *
      simpa using ih.cons₂ id

theorem transitiveScan_sound {p : ImagePair} :
    ∀ (cands : List ImagePair) (seen : List (ℕ × ℕ)),
      p ∈ (transitiveScan seen cands).1 → p.1 ≠ p.2 := by
  intro cands
  induction cands with
  | nil => intro seen hp; simp [transitiveScan] at hp
  | cons q rest ih =>
    intro seen hp
    rw [transitiveScan] at hp
    by_cases h : q.1 ≠ q.2 ∧ canonId q ∉ seen
    · rw [if_pos h] at hp
      simp only [List.mem_cons] at hp
      rcases hp with rfl | hp
      · exact h.1
      · exact ih _ hp
    · rw [if_neg h] at hp
      exact ih _ hp

theorem transitiveRounds_sound {p : ImagePair} :
    ∀ (n : ℕ) (known : List ImagePair) (seen : List (ℕ × ℕ)),
      p ∈ (transitiveRoundsAux n known seen).flatten → p.1 ≠ p.2 := by
  intro n
  induction n with
  | zero => intro known seen hp; simp [transitiveRoundsAux] at hp
  | succ n ih =>
    intro known seen hp
    rw [transitiveRoundsAux] at hp
    simp only [List.flatten_cons, List.mem_append] at hp
    rcases hp with hp | hp
    · exact transitiveScan_sound _ _ hp
    · exact ih _ _ hp

theorem vocabRetrievalPairs_sound {opts : VocabTreePairingOptions}
    {retrieve : ℕ → List ℕ} {q : ℕ} {p : ImagePair}
    (hp : p ∈ vocabRetrievalPairs opts retrieve q) : p.1 ≠ p.2 := by
  unfold vocabRetrievalPairs at hp
  simp only [List.mem_map, List.mem_filter] at hp
  obtain ⟨c, ⟨_, hc⟩, rfl⟩ := hp
  simpa using fun hEq => by simp [hEq] at hc

theorem getD_id_ne {ids : List ℕ} (hnd : ids.Nodup) {i j : ℕ}
    (hi : i < ids.length) (hj : j < ids.length) (hij : i ≠ j) :
    ids.getD i 0 ≠ ids.getD j 0 := by
  rw [List.getD_eq_getElem ids 0 hi, List.getD_eq_getElem ids 0 hj]
  intro hEq
  exact hij ((hnd.getElem_inj_iff).mp hEq)

theorem snd_mem_of_mem_enum {α : Type} {l : List α} {rc : ℕ × α}
    (h : rc ∈ l.enum) : rc.2 ∈ l := by
  have h2 := List.mem_map_of_mem Prod.snd h
  rwa [show l.enum = List.enumFrom 0 l from rfl,
    List.enumFrom_map_snd] at h2

theorem spatialKept_sound {opts : SpatialPairingOptions}
    {positioned : List (ℕ × Pos3)} {i c : ℕ}
    (hc : c ∈ spatialKept opts positioned i) :
    c ∈ List.range positioned.length ∧ c ≠ i := by
  unfold spatialKept at hc
  simp only [List.mem_map] at hc
  obtain ⟨rc, hrc, rfl⟩ := hc
  have h1 : rc ∈ (spatialRanked opts positioned i).enum :=
    (List.mem_filter.mp hrc).1
  have h2 : rc.2 ∈ spatialRanked opts positioned i := snd_mem_of_mem_enum h1
  unfold spatialRanked at h2
  have h3 := List.take_subset _ _ h2
  rw [mem_sortByLe, List.mem_filter] at h3
  exact ⟨h3.1, by simpa using h3.2⟩

theorem spatialRow_sound {opts : SpatialPairingOptions}
    {prior : List (ℕ × Option Pos3)}
    (hnd : (prior.map Prod.fst).Nodup) {i : ℕ}
    (hi : i < (positionedOf prior).length) {p : ImagePair}
    (hp : p ∈ spatialRow opts (positionedOf prior) i) : p.1 ≠ p.2 := by
  have hnd' : ((positionedOf prior).map Prod.fst).Nodup :=
    (positioned_ids_sublist prior).nodup hnd
  unfold spatialRow at hp
  simp only [List.mem_map] at hp
  obtain ⟨c, hc, rfl⟩ := hp
  obtain ⟨hcr, hci⟩ := spatialKept_sound hc
  have hclen : c < (positionedOf prior).length := List.mem_range.mp hcr
  set ps := positionedOf prior with hps
  intro hEq
  have hgi : (ps.getD i default).1 = (ps.map Prod.fst).getD i 0 := by
    rw [List.getD_eq_getElem ps default hi,
      List.getD_eq_getElem (ps.map Prod.fst) 0 (by simpa using hi)]
    simp
  have hgc : (ps.getD c default).1 = (ps.map Prod.fst).getD c 0 := by
    rw [List.getD_eq_getElem ps default hclen,
      List.getD_eq_getElem (ps.map Prod.fst) 0 (by simpa using hclen)]
    simp
  rw [hgi, hgc] at hEq
  exact getD_id_ne hnd' (by simpa using hi) (by simpa using hclen)
    (Ne.symm hci) hEq

theorem seqBatch_sound {opts : SequentialPairingOptions} {ids : List ℕ}
    {frames : List (List ℕ)} {retrieve : ℕ → List ℕ}
    (hnd : ids.Nodup) {i : ℕ} (hi : i < ids.length) {p : ImagePair}
    (hp : p ∈ seqBatch opts ids frames retrieve i) : p.1 ≠ p.2 := by
  unfold seqBatch at hp
  simp only [List.mem_append] at hp
  rcases hp with ((hp | hp) | hp) | hp
  · unfold seqLinearPairs at hp
    simp only [List.mem_filterMap, List.mem_range] at hp
    obtain ⟨d, _, hd⟩ := hp
    by_cases hin : i + d + 1 < ids.length
    · rw [if_pos hin] at hd
      obtain rfl := (Option.some.injEq ..).mp hd
      exact getD_id_ne hnd hi hin (by omega)
    · rw [if_neg hin] at hd
      exact absurd hd (by simp)
  · rcases hq : opts.quadratic_overlap with _ | _
    · rw [hq] at hp; simp at hp
    · rw [hq, if_pos rfl] at hp
      unfold seqQuadraticPairs at hp
      simp only [List.mem_filterMap, List.mem_range] at hp
      obtain ⟨k, _, hk⟩ := hp
      by_cases hin : i + 2 ^ (k + 1) < ids.length
      · rw [if_pos hin] at hk
        obtain rfl := (Option.some.injEq ..).mp hk
        have h2k : 1 ≤ 2 ^ (k + 1) := Nat.one_le_two_pow
        exact getD_id_ne hnd hi hin (by omega)
      · rw [if_neg hin] at hk
        exact absurd hk (by simp)
  · rcases hq : opts.expand_rig_images with _ | _
    · rw [hq] at hp; simp at hp
    · rw [hq, if_pos rfl] at hp
      unfold seqRigPairs at hp
      by_cases hfr : (frames.findIdx fun fr => decide ((ids.getD i 0) ∈ fr)) <
          frames.length
      · rw [if_pos hfr] at hp
        simp only [List.mem_map, List.mem_filter] at hp
        obtain ⟨y, ⟨_, hy⟩, rfl⟩ := hp
        simpa using fun hEq => by simp [hEq] at hy
      · rw [if_neg hfr] at hp
        simp at hp
  · rcases hq : (opts.loop_detection &&
        (i % opts.loop_detection_period == 0)) with _ | _
    · rw [hq] at hp; simp at hp
    · rw [hq, if_pos rfl] at hp
      exact vocabRetrievalPairs_sound hp

/-- C3: no strategy ever emits a self-pair.  Exhaustive and sequential
pairing need the corpus ids to be distinct (ImageIds are unique by the
data model); spatial pairing needs prior ids distinct; imported pairing
replays externally supplied `ImagePair`s, which have distinct endpoints
by the data model; transitive and vocab-tree emissions are
unconditionally self-free (explicit `a ≠ c` / self-filter). -/
theorem C3_no_self_pairs :
    (∀ (ids : List ℕ) (B fuel : ℕ), ids.Nodup →
      ∀ p ∈ (ExhaustivePairGen.drainFrom fuel (exhaustiveInit ids B)).flatten,
        p.1 ≠ p.2) ∧
    (∀ (opts : ImportedPairingOptions) (pairs : List ImagePair) (fuel : ℕ),
      (∀ q ∈ pairs, q.1 ≠ q.2) →
      ∀ p ∈ (replayGen.drainFrom fuel (ImportedPairGenerator opts pairs)).flatten,
        p.1 ≠ p.2) ∧
    (∀ (opts : SpatialPairingOptions) (prior : List (ℕ × Option Pos3))
        (fuel : ℕ), (prior.map Prod.fst).Nodup →
      ∀ p ∈ (replayGen.drainFrom fuel (SpatialPairGenerator opts prior)).flatten,
        p.1 ≠ p.2) ∧
    (∀ (opts : TransitivePairingOptions) (seed : List ImagePair) (fuel : ℕ),
      ∀ p ∈ (replayGen.drainFrom fuel (TransitivePairGenerator opts seed)).flatten,
        p.1 ≠ p.2) ∧
    (∀ (opts : VocabTreePairingOptions) (qs : List ℕ)
        (retrieve : ℕ → List ℕ) (fuel : ℕ),
      ∀ p ∈ (replayGen.drainFrom fuel
          (VocabTreePairGenerator opts qs retrieve)).flatten, p.1 ≠ p.2) ∧
    (∀ (opts : SequentialPairingOptions) (ids : List ℕ)
        (frames : List (List ℕ)) (retrieve : ℕ → List ℕ) (fuel : ℕ),
      ids.Nodup →
      ∀ p ∈ (replayGen.drainFrom fuel
          (SequentialPairGenerator opts ids frames retrieve)).flatten,
        p.1 ≠ p.2) := by
  refine ⟨?_, ?_, ?_, ?_, ?_, ?_⟩
  · intro ids B fuel hnd p hp
    have heq : exhaustiveInit ids B = (⟨ids, B, 0, 0⟩ : ExhaustiveState) := rfl
    rw [heq, exh_drain_eq ids B fuel 0 0, ← List.map_flatten] at hp
    simp only [List.mem_map] at hp
    obtain ⟨q, hq, rfl⟩ := hp
    have hs := exh_idx_sound fuel 0 0 q hq
    exact getD_id_ne hnd (by omega) (by omega) (by omega)
  · intro opts pairs fuel hps p hp
    have h1 := ReplayLemmas.replay_mem_sched hp
    exact hps p (mem_flatten_chunksOf h1)
  · intro opts prior fuel hnd p hp
    have h1 := ReplayLemmas.replay_mem_sched hp
    simp only [SpatialPairGenerator, spatialSchedule, List.mem_flatten,
      List.mem_map, List.mem_range] at h1
    obtain ⟨row, ⟨i, hi, rfl⟩, hpr⟩ := h1
    exact spatialRow_sound hnd hi hpr
  · intro opts seed fuel p hp
    have h1 := ReplayLemmas.replay_mem_sched hp
    simp only [TransitivePairGenerator, transitiveSchedule,
      List.mem_flatten, List.mem_flatMap] at h1
    obtain ⟨chunk, ⟨round, hround, hchunk⟩, hpc⟩ := h1
    have h2 : p ∈ round :=
      mem_flatten_chunksOf (List.mem_flatten.mpr ⟨chunk, hchunk, hpc⟩)
    have h3 : p ∈ (transitiveRounds seed opts.num_iterations).flatten :=
      List.mem_flatten.mpr ⟨round, hround, h2⟩
    exact transitiveRounds_sound opts.num_iterations seed _ h3
  · intro opts qs retrieve fuel p hp
    have h1 := ReplayLemmas.replay_mem_sched hp
    simp only [VocabTreePairGenerator, vocabSchedule, List.mem_flatten,
      List.mem_map] at h1
    obtain ⟨row, ⟨q, _, rfl⟩, hpr⟩ := h1
    exact vocabRetrievalPairs_sound hpr
  · intro opts ids frames retrieve fuel hnd p hp
    have h1 := ReplayLemmas.replay_mem_sched hp
    simp only [SequentialPairGenerator, sequentialSchedule,
      List.mem_flatten, List.mem_map, List.mem_range] at h1
    obtain ⟨row, ⟨i, hi, rfl⟩, hpr⟩ := h1
    exact seqBatch_sound hnd hi hpr

/-- Witness for C3 at concrete corpora for the strategies whose
conjuncts carry hypotheses. -/
theorem C3_no_self_pairs_witness :
    (([3, 9, 5] : List ℕ).Nodup ∧
      ∀ p ∈ (ExhaustivePairGen.drainFrom 9
          (exhaustiveInit [3, 9, 5] 2)).flatten, p.1 ≠ p.2) ∧
    ((∀ q ∈ ([(1, 2), (2, 3)] : List ImagePair), q.1 ≠ q.2) ∧
      ∀ p ∈ (replayGen.drainFrom 4
          (ImportedPairGenerator ⟨1, ""⟩ [(1, 2), (2, 3)])).flatten,
        p.1 ≠ p.2) ∧
    ((([(7, some ((0 : ℤ), (0 : ℤ), (0 : ℤ))), (8, none),
          (9, some ((1 : ℤ), (0 : ℤ), (0 : ℤ)))] :
        List (ℕ × Option Pos3)).map Prod.fst).Nodup ∧
      ∀ p ∈ (replayGen.drainFrom 4 (SpatialPairGenerator {}
          [(7, some ((0 : ℤ), (0 : ℤ), (0 : ℤ))), (8, none),
            (9, some ((1 : ℤ), (0 : ℤ), (0 : ℤ)))])).flatten, p.1 ≠ p.2) ∧
    (([11, 12, 13] : List ℕ).Nodup ∧
      ∀ p ∈ (replayGen.drainFrom 4 (SequentialPairGenerator {} [11, 12, 13]
          [] (fun _ => []))).flatten, p.1 ≠ p.2) :=
  ⟨⟨by decide, C3_no_self_pairs.1 [3, 9, 5] 2 9 (by decide)⟩,
    ⟨by decide, C3_no_self_pairs.2.1 ⟨1, ""⟩ [(1, 2), (2, 3)] 4 (by decide)⟩,
    ⟨by decide, C3_no_self_pairs.2.2.1 {}
      [(7, some ((0 : ℤ), (0 : ℤ), (0 : ℤ))), (8, none),
        (9, some ((1 : ℤ), (0 : ℤ), (0 : ℤ)))] 4 (by decide)⟩,
    ⟨by decide, C3_no_self_pairs.2.2.2.2.2 {} [11, 12, 13] []
      (fun _ => []) 4 (by decide)⟩⟩

/-! ## C5: transitive deduplication -/

theorem transitiveScan_spec :
    ∀ (cands : List ImagePair) (seen : List (ℕ × ℕ)),
      (transitiveScan seen cands).2 =
        ((transitiveScan seen cands).1.map canonId).reverse ++ seen ∧
      ((transitiveScan seen cands).1.map canonId).Nodup ∧
      ∀ c ∈ (transitiveScan seen cands).1.map canonId, c ∉ seen := by
  intro cands
  induction cands with
  | nil => intro seen; simp [transitiveScan]
  | cons p rest ih =>
    intro seen
    rw [transitiveScan]
    by_cases h : p.1 ≠ p.2 ∧ canonId p ∉ seen
    · rw [if_pos h]
      obtain ⟨ihs, ihn, ihf⟩ := ih (canonId p :: seen)
      simp only [List.map_cons, List.reverse_cons, List.nodup_cons]
      refine ⟨?_, ⟨?_, ihn⟩, ?_⟩
      · rw [ihs]
        simp
      · intro hmem
        exact ihf (canonId p) hmem (List.mem_cons_self _ _)
      · intro c hc
        simp only [List.mem_cons] at hc
        rcases hc with rfl | hc
        · exact h.2
        · intro hcs
          exact ihf c hc (List.mem_cons_of_mem _ hcs)
    · rw [if_neg h]
      exact ih seen

theorem transitiveRoundsAux_spec :
    ∀ (n : ℕ) (known : List ImagePair) (seen : List (ℕ × ℕ)),
      (((transitiveRoundsAux n known seen).flatten).map canonId).Nodup ∧
      ∀ c ∈ ((transitiveRoundsAux n known seen).flatten).map canonId,
        c ∉ seen := by
  intro n
  induction n with
  | zero => intro known seen; simp [transitiveRoundsAux]
  | succ n ih =>
    intro known seen
    rw [transitiveRoundsAux]
    obtain ⟨hs, hn, hf⟩ := transitiveScan_spec (transitiveCandidates known) seen
    set r := transitiveScan seen (transitiveCandidates known) with hr
    obtain ⟨ihn, ihf⟩ := ih (known ++ r.1) r.2
    simp only [List.flatten_cons, List.map_append, List.nodup_append]
    refine ⟨⟨hn, ihn, ?_⟩, ?_⟩
    · intro c hc hc2
      have : c ∈ r.2 := by
        rw [hs]
        exact List.mem_append_left _ (List.mem_reverse.mpr hc)
      exact ihf c hc2 this
    · intro c hc
      simp only [List.mem_append] at hc
      rcases hc with hc | hc
      · exact hf c hc
      · intro hcs
        have : c ∈ r.2 := by
          rw [hs]
          exact List.mem_append_right _ hcs
        exact ihf c hc this

theorem flatten_chunksOf_sublist {α : Type} (B : ℕ) (l : List α) :
    ((chunksOf B l).flatten).Sublist l := by
  rcases Nat.eq_zero_or_pos B with hB | hB
  · subst hB
    match l with
    | [] => simp [chunksOf, chunksOfAux]
    | x :: xs => simp [chunksOf, chunksOfAux]
  · rw [flatten_chunksOf hB]

theorem flatten_flatMap_chunks_sublist (B : ℕ) :
    ∀ L : List (List ImagePair),
      ((L.flatMap (chunksOf B)).flatten).Sublist L.flatten := by
  intro L
  induction L with
  | nil => simp
  | cons r rest ih =>
    simp only [List.flatMap_cons, List.flatten_append, List.flatten_cons]
    exact List.Sublist.append (flatten_chunksOf_sublist B r) ih

/-- C5: `TransitivePairGenerator` never emits the same unordered pair
twice across an entire run — the canonical ids of all emissions (across
all rounds, and across the whole generator drain) are pairwise distinct
and disjoint from the seed graph's canonical ids — and on the 4-node
path seed `{(1,2),(2,3),(3,4)}` with `num_iterations = 2` the rounds
emit exactly `[(1,3),(2,4)]` then `[(1,4)]` (so `(1,3)` is not
re-emitted in round 2). -/
theorem C5_transitive_dedup :
    (∀ (seed : List ImagePair) (iterations : ℕ),
      (((transitiveRounds seed iterations).flatten).map canonId).Nodup ∧
      ∀ c ∈ ((transitiveRounds seed iterations).flatten).map canonId,
        c ∉ seed.map canonId) ∧
    (∀ (opts : TransitivePairingOptions) (seed : List ImagePair) (fuel : ℕ),
      (((replayGen.drainFrom fuel
          (TransitivePairGenerator opts seed)).flatten).map canonId).Nodup) ∧
    transitiveRounds [(1, 2), (2, 3), (3, 4)] 2 =
      [[(1, 3), (2, 4)], [(1, 4)]] := by
  refine ⟨?_, ?_, by decide⟩
  · intro seed iterations
    exact transitiveRoundsAux_spec iterations seed (seed.map canonId)
  · intro opts seed fuel
    have hdrain := ReplayLemmas.replay_drainFrom fuel
      (transitiveSchedule opts seed) 0
    have h0 : (TransitivePairGenerator opts seed) =
        (⟨transitiveSchedule opts seed, 0⟩ : ReplayState) := rfl
    rw [h0, hdrain, List.drop_zero]
    have hsub1 : (((transitiveSchedule opts seed).take fuel).flatten).Sublist
        ((transitiveSchedule opts seed).flatten) := by
      conv_rhs => rw [← List.take_append_drop fuel (transitiveSchedule opts seed)]
      rw [List.flatten_append]
      exact List.sublist_append_left _ _
    have hsub2 := flatten_flatMap_chunks_sublist opts.batch_size
      (transitiveRounds seed opts.num_iterations)
    have hsub : (((transitiveSchedule opts seed).take fuel).flatten).Sublist
        ((transitiveRounds seed opts.num_iterations).flatten) :=
      hsub1.trans hsub2
    exact ((transitiveRoundsAux_spec opts.num_iterations seed
      (seed.map canonId)).1).sublist (hsub.map canonId)

/-- Witness for C5's freshness clause at a concrete emitted pair. -/
theorem C5_transitive_dedup_witness :
    canonId (1, 3) ∈
      ((transitiveRounds [(1, 2), (2, 3), (3, 4)] 2).flatten).map canonId ∧
    canonId (1, 3) ∉
      ([(1, 2), (2, 3), (3, 4)] : List ImagePair).map canonId :=
  ⟨by decide,
    (C5_transitive_dedup.1 [(1, 2), (2, 3), (3, 4)] 2).2 (canonId (1, 3))
      (by decide)⟩


/-! ## C4: spatial floor -/

theorem effDistSq_nonneg (iz : Bool) (p q : Pos3) : 0 ≤ effDistSq iz p q := by
  unfold effDistSq
  have h1 := mul_self_nonneg (p.1 - q.1)
  have h2 := mul_self_nonneg (p.2.1 - q.2.1)
  have h3 := mul_self_nonneg (p.2.2 - q.2.2)
  rcases iz with _ | _ <;> simp <;> linarith

theorem length_filter_enumFrom_lt {α : Type} (m : ℕ) :
    ∀ (l : List α) (k : ℕ),
      ((List.enumFrom k l).filter fun rc => decide (rc.1 < m)).length =
        min m (k + l.length) - min m k := by
  intro l
  induction l with
  | nil => intro k; simp
  | cons x xs ih =>
    intro k
    rw [List.enumFrom_cons, List.filter_cons]
    by_cases hk : k < m
    · rw [if_pos (by simpa using hk)]
      simp only [List.length_cons, ih (k + 1)]
      omega
    · rw [if_neg (by simpa using hk)]
      rw [ih (k + 1)]
      omega

theorem length_filter_ne_range (np i : ℕ) (hi : i < np) :
    ((List.range np).filter fun c => c ≠ i).length = np - 1 := by
  have h1 : ((List.range np).filter fun c => decide (c ≠ i)) =
      (List.range np).filter (· != i) :=
    List.filter_congr fun a _ => by by_cases h : a = i <;> simp [h]
  rw [h1, ← List.Nodup.erase_eq_filter (List.nodup_range np) i,
    List.length_erase_of_mem (List.mem_range.mpr hi), List.length_range]

theorem length_spatialRanked (opts : SpatialPairingOptions)
    (positioned : List (ℕ × Pos3)) (i : ℕ) (hi : i < positioned.length) :
    (spatialRanked opts positioned i).length =
      min (spatialKnn opts positioned.length) (positioned.length - 1) := by
  unfold spatialRanked
  rw [List.length_take, length_sortByLe,
    length_filter_ne_range positioned.length i hi]

/-- Members of the ranked-candidate list are in-range indices distinct
from the query. -/
theorem mem_spatialRanked {opts : SpatialPairingOptions}
    {positioned : List (ℕ × Pos3)} {i c : ℕ}
    (hc : c ∈ spatialRanked opts positioned i) :
    c < positioned.length ∧ c ≠ i := by
  unfold spatialRanked at hc
  have h3 := List.take_subset _ _ hc
  rw [mem_sortByLe, List.mem_filter] at h3
  exact ⟨List.mem_range.mp h3.1, by simpa using h3.2⟩

/-- Counterexample input for C4: two images at the *same* position,
`min_num_neighbors = 0`, `max_distance = 0`. -/
def C4opts : SpatialPairingOptions :=
  { ignore_z := true, max_num_neighbors := 50, min_num_neighbors := 0,
    max_distance := 0, num_threads := -1 }

/-- Counterexample prior: both images at the origin. -/
def C4prior : List (ℕ × Option Pos3) :=
  [(10, some ((0 : ℤ), (0 : ℤ), (0 : ℤ))),
   (20, some ((0 : ℤ), (0 : ℤ), (0 : ℤ)))]

/-- C4 as stated fails on the model: with two coincident positions,
`min_num_neighbors = 0` and `max_distance = 0`, the distance-0 neighbour
passes the `distance ≤ max_distance` test, so image 10 receives 1
neighbour although `min(min_num_neighbors, num_positioned − 1) =
min(0, 1) = 0` — the per-image neighbour count is not exactly
`min(k, num_positioned − 1)`. -/
theorem C4_spatial_floor_counterexample :
    (spatialRow C4opts (positionedOf C4prior) 0).length = 1 ∧
    min C4opts.min_num_neighbors ((positionedOf C4prior).length - 1) = 0 := by
  constructor <;> decide

/-- C4 (amended): for `max_distance = 0`, if the effective (z-ignored
when `ignore_z`) positions of the positioned images are pairwise
distinct, every positioned image is paired with exactly
`min(min_num_neighbors, max_num_neighbors, num_positioned − 1)`
neighbours (the `max_num_neighbors` bound is the width of the k-NN
matrix, `k = min(max_num_neighbors, num_positioned − 1)`). -/
theorem C4_spatial_floor_amended (opts : SpatialPairingOptions)
    (prior : List (ℕ × Option Pos3)) (i : ℕ)
    (hmd : opts.max_distance = 0)
    (hdist : ∀ a b : ℕ, a < (positionedOf prior).length →
      b < (positionedOf prior).length → a ≠ b →
      effDistSq opts.ignore_z ((positionedOf prior).getD a default).2
        ((positionedOf prior).getD b default).2 ≠ 0)
    (hi : i < (positionedOf prior).length) :
    (spatialRow opts (positionedOf prior) i).length =
      min opts.min_num_neighbors
        (min opts.max_num_neighbors ((positionedOf prior).length - 1)) := by
  set ps := positionedOf prior with hps
  unfold spatialRow spatialKept
  rw [List.length_map, List.length_map]
  have hcongr : ((spatialRanked opts ps i).enum.filter fun rc =>
      decide (effDistSq opts.ignore_z (ps.getD i default).2
          (ps.getD rc.2 default).2 ≤
            opts.max_distance * opts.max_distance ∨
        rc.1 < opts.min_num_neighbors)) =
      ((spatialRanked opts ps i).enum.filter fun rc =>
        decide (rc.1 < opts.min_num_neighbors)) := by
    refine List.filter_congr fun rc hrc => ?_
    have hc2 : rc.2 ∈ spatialRanked opts ps i := snd_mem_of_mem_enum hrc
    obtain ⟨hclen, hci⟩ := mem_spatialRanked hc2
    have hne : effDistSq opts.ignore_z (ps.getD i default).2
        (ps.getD rc.2 default).2 ≠ 0 := hdist i rc.2 hi hclen (Ne.symm hci)
    have hnn : 0 ≤ effDistSq opts.ignore_z (ps.getD i default).2
        (ps.getD rc.2 default).2 := effDistSq_nonneg _ _ _
    have hnot : ¬ (effDistSq opts.ignore_z (ps.getD i default).2
        (ps.getD rc.2 default).2 ≤
          opts.max_distance * opts.max_distance) := by
      rw [hmd]
      intro hle
      exact hne (le_antisymm (by simpa using hle) hnn)
    rw [decide_eq_decide]
    constructor
    · rintro (h | h)
      · exact absurd h hnot
      · exact h
    · exact Or.inr
  rw [hcongr]
  have hcount := length_filter_enumFrom_lt opts.min_num_neighbors
    (spatialRanked opts ps i) 0
  rw [show (spatialRanked opts ps i).enum =
      List.enumFrom 0 (spatialRanked opts ps i) from rfl, hcount,
    length_spatialRanked opts ps i hi]
  unfold spatialKnn
  omega

/-- Amended-C4 witness input: a floor of 1 neighbour. -/
def C4opts2 : SpatialPairingOptions :=
  { ignore_z := true, max_num_neighbors := 50, min_num_neighbors := 1,
    max_distance := 0, num_threads := -1 }

/-- Amended-C4 witness prior: three distinct collinear positions. -/
def C4prior2 : List (ℕ × Option Pos3) :=
  [(1, some ((0 : ℤ), (0 : ℤ), (0 : ℤ))),
   (2, some ((1 : ℤ), (0 : ℤ), (0 : ℤ))),
   (3, some ((2 : ℤ), (0 : ℤ), (0 : ℤ)))]

/-- Witness for the amended C4 at three distinct positions. -/
theorem C4_spatial_floor_amended_witness :
    (C4opts2.max_distance = 0 ∧
      0 < (positionedOf C4prior2).length) ∧
    (spatialRow C4opts2 (positionedOf C4prior2) 0).length =
      min C4opts2.min_num_neighbors
        (min C4opts2.max_num_neighbors ((positionedOf C4prior2).length - 1)) :=
  ⟨⟨rfl, by decide⟩,
    C4_spatial_floor_amended C4opts2 C4prior2 0 rfl
      (fun a b ha hb hab => by
        have ha3 : a < 3 := ha
        have hb3 : b < 3 := hb
        interval_cases a <;> interval_cases b <;> first | omega | decide)
      (by decide)⟩

/-! ## C7: CacheSize purity -/

/-- C7: every options struct's `CacheSize()` is exactly the header's
closed-form function of its option fields (so it is computable without
touching corpus or index), and — as the exhaustive generator
demonstrates — the options value a generator carries is untouched by any
number of `Next()` calls on any corpus, so every call returns the same
value. -/
theorem C7_cachesize_pure :
    (∀ o : ExhaustivePairingOptions, o.CacheSize = o.block_size) ∧
    (∀ o : VocabTreePairingOptions, o.CacheSize = 5 * o.num_images) ∧
    (∀ o : SequentialPairingOptions,
      o.CacheSize = max (5 * o.loop_detection_num_images) (5 * o.overlap)) ∧
    (∀ o : SpatialPairingOptions, o.CacheSize = 5 * o.max_num_neighbors) ∧
    (∀ o : TransitivePairingOptions, o.CacheSize = 2 * o.batch_size) ∧
    (∀ o : ImportedPairingOptions, o.CacheSize = o.block_size) ∧
    (∀ (o : ExhaustivePairingOptions) (ids : List ℕ) (k : ℕ),
      (ExhaustivePairGen.stateAfter k
          (exhaustiveInit ids o.block_size)).block_size = o.CacheSize) := by
  refine ⟨fun _ => rfl, fun _ => rfl, fun _ => rfl, fun _ => rfl,
    fun _ => rfl, fun _ => rfl, ?_⟩
  intro o ids k
  exact (exh_stateAfter_fields k (exhaustiveInit ids o.block_size)).2

/-! ## C8: in-order delivery from the worker pool

Modelled from the spec: "a bounded channel for query jobs, and an
explicit in-order reassembly buffer (e.g., keyed by monotonically
increasing submission sequence number)".  An arbitrary interleaving of
worker execution is an arbitrary permutation `completed` of the
sequence-number-tagged results `submissions.enum`; the consumer
reassembles slot by slot in submission order. -/

/-- In-order reassembly: deliver slot `0, 1, …, n-1` by looking up each
submission sequence number among the completed results. -/
def reassemble {α : Type} (n : ℕ) (completed : List (ℕ × α)) : List α :=
  (List.range n).filterMap fun i => completed.lookup i

theorem lookup_of_mem_nodupkeys {α : Type} :
    ∀ {l : List (ℕ × α)}, ((l.map Prod.fst).Nodup) →
      ∀ {i : ℕ} {x : α}, (i, x) ∈ l → l.lookup i = some x := by
  intro l
  induction l with
  | nil => intro _ i x h; simp at h
  | cons a rest ih =>
    intro hnd i x h
    obtain ⟨k, b⟩ := a
    simp only [List.map_cons, List.nodup_cons] at hnd
    rcases List.mem_cons.mp h with hEq | hmem
    · have hk : k = i ∧ b = x := by simpa [Prod.ext_iff] using hEq.symm
      obtain ⟨rfl, rfl⟩ := hk
      simp [List.lookup]
    · have hki : k ≠ i := by
        intro hk
        subst hk
        exact hnd.1 (List.mem_map_of_mem Prod.fst hmem)
      have hbeq : (i == k) = false := beq_eq_false_iff_ne.mpr (Ne.symm hki)
      rw [List.lookup_cons, hbeq]
      exact ih hnd.2 hmem

theorem filterMap_lookup_range_eq {α : Type} (subs : List α)
    (f : ℕ → Option α)
    (hf : ∀ (i : ℕ) (h : i < subs.length), f i = some (subs.get ⟨i, h⟩)) :
    (List.range subs.length).filterMap f = subs := by
  have key : ∀ (k s : ℕ), s + k = subs.length →
      (List.range' s k).filterMap f = subs.drop s := by
    intro k
    induction k with
    | zero =>
      intro s hs
      rw [List.drop_eq_nil_of_le (by omega)]
      rfl
    | succ k ih =>
      intro s hs
      have hslt : s < subs.length := by omega
      rw [List.range'_succ, List.drop_eq_getElem_cons hslt]
      simp only [List.filterMap_cons, hf s hslt, List.get_eq_getElem]
      rw [ih (s + 1) (by omega)]
  have h0 := key subs.length 0 (by omega)
  rw [List.range_eq_range']
  simpa using h0

/-- C8: for every interleaving of worker completion (every permutation
of the tagged retrieval results), in-order reassembly delivers the
results exactly in query-submission order — never completion order —
and consequently the `VocabTreePairGenerator` schedule computed from the
delivered results is the same for every interleaving. -/
theorem C8_inorder_delivery :
    (∀ (submissions : List (List ℕ)) (completed : List (ℕ × List ℕ)),
      completed.Perm submissions.enum →
      reassemble submissions.length completed = submissions) ∧
    (∀ (opts : VocabTreePairingOptions) (qs : List ℕ)
        (retrieve : ℕ → List ℕ) (completed : List (ℕ × List ℕ)),
      completed.Perm ((qs.map retrieve).enum) →
      vocabSchedule opts qs retrieve =
        (qs.zip (reassemble (qs.map retrieve).length completed)).map
          fun qr => ((qr.2.take opts.num_images).filter fun c => c ≠ qr.1).map
            fun c => (qr.1, c)) := by
  have hmain : ∀ {α : Type} (submissions : List α)
      (completed : List (ℕ × α)), completed.Perm submissions.enum →
      reassemble submissions.length completed = submissions := by
    intro α subs completed hperm
    have hkeys : (completed.map Prod.fst).Perm (List.range subs.length) := by
      have h1 := hperm.map Prod.fst
      rwa [show subs.enum = List.enumFrom 0 subs from rfl,
        List.enumFrom_map_fst, ← List.range_eq_range'] at h1
    have hnd : (completed.map Prod.fst).Nodup :=
      (List.Perm.nodup_iff hkeys).mpr (List.nodup_range _)
    have hlookup : ∀ (i : ℕ) (h : i < subs.length),
        completed.lookup i = some (subs.get ⟨i, h⟩) := by
      intro i h
      have hmem : (i, subs.get ⟨i, h⟩) ∈ subs.enum := by
        rw [List.mk_mem_enum_iff_getElem?, List.get_eq_getElem]
        exact List.getElem?_eq_getElem h
      exact lookup_of_mem_nodupkeys hnd (hperm.symm.subset hmem)
    exact filterMap_lookup_range_eq subs _ hlookup
  refine ⟨fun subs completed h => hmain subs completed h, ?_⟩
  intro opts qs retrieve completed hperm
  rw [hmain (qs.map retrieve) completed hperm]
  unfold vocabSchedule
  clear hperm
  induction qs with
  | nil => rfl
  | cons q rest ih =>
    simp only [List.map_cons, List.zip_cons_cons, List.map_cons] at *
    rw [ih]
    rfl

/-- Witness for C8: an out-of-submission-order completion sequence is
redelivered in submission order. -/
theorem C8_inorder_delivery_witness :
    (([(2, [30]), (0, [10]), (1, [20])] :
        List (ℕ × List ℕ)).Perm ([[10], [20], [30]] : List (List ℕ)).enum) ∧
    reassemble ([[10], [20], [30]] : List (List ℕ)).length
        [(2, [30]), (0, [10]), (1, [20])] = [[10], [20], [30]] :=
  ⟨by decide,
    C8_inorder_delivery.1 [[10], [20], [30]] [(2, [30]), (0, [10]), (1, [20])]
      (by decide)⟩

/-! ## Triangulation (`src/colmap/geometry/triangulation.cc`)

Embedded over `ℚ`.  The numeric kernels that live outside this
translation unit — Eigen's `JacobiSVD` (we only consume `matrixV()`;
`none` models `svd.info() != Eigen::Success`), Eigen's
`SelfAdjointEigenSolver` (we only consume `eigenvectors()`; `none`
models `info() != Success`), Eigen's `.normalized()` (irrational over
`ℚ`), and `EssentialMatrixFromPose` / `FindOptimalImageObservations`
from `essential_matrix.cc` — are abstracted as explicit function
parameters; every branch and assignment of `triangulation.cc` itself is
embedded. -/

/-- A 2-D point (`Eigen::Vector2d`). -/
structure V2q where
  x : ℚ
  y : ℚ
deriving DecidableEq

/-- A 3-D point (`Eigen::Vector3d`). -/
structure V3q where
  x : ℚ
  y : ℚ
  z : ℚ
deriving DecidableEq

/-- A 4-vector (one row of a 3×4 or 4×4 matrix). -/
structure V4q where
  a : ℚ
  b : ℚ
  c : ℚ
  d : ℚ
deriving DecidableEq

/-- `Eigen::Matrix3x4d` by rows. -/
structure M34q where
  r0 : V4q
  r1 : V4q
  r2 : V4q
deriving DecidableEq

/-- `Eigen::Matrix4d` by rows. -/
structure M4q where
  r0 : V4q
  r1 : V4q
  r2 : V4q
  r3 : V4q
deriving DecidableEq

/-- `Eigen::Matrix3d` by rows. -/
structure M3q where
  r0 : V3q
  r1 : V3q
  r2 : V3q
deriving DecidableEq

def v4smul (s : ℚ) (v : V4q) : V4q := ⟨s * v.a, s * v.b, s * v.c, s * v.d⟩

def v4sub (u v : V4q) : V4q := ⟨u.a - v.a, u.b - v.b, u.c - v.c, u.d - v.d⟩

def v3add (u v : V3q) : V3q := ⟨u.x + v.x, u.y + v.y, u.z + v.z⟩

def v3smul (s : ℚ) (v : V3q) : V3q := ⟨s * v.x, s * v.y, s * v.z⟩

def v3neg (v : V3q) : V3q := ⟨-v.x, -v.y, -v.z⟩

def dot3 (u v : V3q) : ℚ := u.x * v.x + u.y * v.y + u.z * v.z

/-- The homogeneous system of `TriangulatePoint`
(`triangulation.cc:47-51`):
`A.row(0) = cam_point1(0) * cam1.row(2) - cam1.row(0)` etc. -/
def triangulateA (cam1_from_world cam2_from_world : M34q)
    (cam_point1 cam_point2 : V2q) : M4q :=
  ⟨v4sub (v4smul cam_point1.x cam1_from_world.r2) cam1_from_world.r0,
   v4sub (v4smul cam_point1.y cam1_from_world.r2) cam1_from_world.r1,
   v4sub (v4smul cam_point2.x cam2_from_world.r2) cam2_from_world.r0,
   v4sub (v4smul cam_point2.y cam2_from_world.r2) cam2_from_world.r1⟩

/-- `TriangulatePoint` (`triangulation.cc:40-66`).  `svdV` abstracts the
`JacobiSVD` call; the out-parameter `*xyz` is modelled by passing the
pointee's prior value `xyz` and returning the (possibly updated) value
next to the `bool`.  On `svd.info() != Success` or `V(3,3) == 0` the
function returns `false` without touching the output; otherwise it
writes `V.col(3).hnormalized()` and returns `true`. -/
def TriangulatePoint (svdV : M4q → Option M4q)
    (cam1_from_world cam2_from_world : M34q)
    (cam_point1 cam_point2 : V2q) (xyz : V3q) : Bool × V3q :=
  match svdV (triangulateA cam1_from_world cam2_from_world
      cam_point1 cam_point2) with
  | none => (false, xyz)
  | some V =>
    if V.r3.d = 0 then (false, xyz)
    else (true, ⟨V.r0.d / V.r3.d, V.r1.d / V.r3.d, V.r2.d / V.r3.d⟩)

/-- `Eigen::Quaterniond` over `ℚ`. -/
structure Quatq where
  w : ℚ
  x : ℚ
  y : ℚ
  z : ℚ
deriving DecidableEq

def quatNormSq (q : Quatq) : ℚ := q.w * q.w + q.x * q.x + q.y * q.y + q.z * q.z

/-- `Quaterniond::inverse()` = conjugate / squared norm. -/
def quatInv (q : Quatq) : Quatq :=
  let n := quatNormSq q
  ⟨q.w / n, -q.x / n, -q.y / n, -q.z / n⟩

def quatMul (p q : Quatq) : Quatq :=
  ⟨p.w * q.w - p.x * q.x - p.y * q.y - p.z * q.z,
   p.w * q.x + p.x * q.w + p.y * q.z - p.z * q.y,
   p.w * q.y - p.x * q.z + p.y * q.w + p.z * q.x,
   p.w * q.z + p.x * q.y - p.y * q.x + p.z * q.w⟩

def quatConj (q : Quatq) : Quatq := ⟨q.w, -q.x, -q.y, -q.z⟩

/-- Quaternion action on a vector (`q * v` in Eigen; the sandwich
`q · (0,v) · q⁻¹` — for the unit quaternions `Rigid3d` maintains this
is Eigen's rotation). -/
def quatRotate (q : Quatq) (v : V3q) : V3q :=
  let r := quatMul (quatMul q ⟨0, v.x, v.y, v.z⟩) (quatConj q)
  ⟨r.x, r.y, r.z⟩

/-- `Rigid3d`: rotation + translation. -/
structure Rigid3dq where
  rotation : Quatq
  translation : V3q

/-- `std::numeric_limits<double>::epsilon() = 2⁻⁵²`. -/
def dblEps : ℚ := 1 / 2 ^ 52

/-- `cam_ray2_in_cam1 = cam2_from_cam1.rotation.inverse() * cam_ray2`
(`triangulation.cc:72-74`). -/
def midRay2InCam1 (cam2_from_cam1 : Rigid3dq) (cam_ray2 : V3q) : V3q :=
  quatRotate (quatInv cam2_from_cam1.rotation) cam_ray2

/-- `cam2_in_cam1 = rotation.inverse() * -translation`
(`triangulation.cc:75-76`). -/
def midCam2InCam1 (cam2_from_cam1 : Rigid3dq) : V3q :=
  quatRotate (quatInv cam2_from_cam1.rotation)
    (v3neg cam2_from_cam1.translation)

/-- The 3×3 system of `TriangulateMidPoint` (`triangulation.cc:78-81`):
columns `cam_ray1`, `-cam_ray2_in_cam1`, `-cam2_in_cam1`. -/
def midpointA (cam2_from_cam1 : Rigid3dq) (cam_ray1 cam_ray2 : V3q) : M3q :=
  ⟨⟨cam_ray1.x, -(midRay2InCam1 cam2_from_cam1 cam_ray2).x,
      -(midCam2InCam1 cam2_from_cam1).x⟩,
   ⟨cam_ray1.y, -(midRay2InCam1 cam2_from_cam1 cam_ray2).y,
      -(midCam2InCam1 cam2_from_cam1).y⟩,
   ⟨cam_ray1.z, -(midRay2InCam1 cam2_from_cam1 cam_ray2).z,
      -(midCam2InCam1 cam2_from_cam1).z⟩⟩

/-- `TriangulateMidPoint` (`triangulation.cc:68-106`); `svdV3` abstracts
the 3×3 `JacobiSVD`; `lambda = V.col(2).hnormalized()` and the
behind-camera check `lambda(i) ≤ epsilon` follow the source. -/
def TriangulateMidPoint (svdV3 : M3q → Option M3q)
    (cam2_from_cam1 : Rigid3dq) (cam_ray1 cam_ray2 : V3q)
    (point3D_in_cam1 : V3q) : Bool × V3q :=
  match svdV3 (midpointA cam2_from_cam1 cam_ray1 cam_ray2) with
  | none => (false, point3D_in_cam1)
  | some V =>
    if V.r2.z = 0 then (false, point3D_in_cam1)
    else
      if V.r0.z / V.r2.z ≤ dblEps ∨ V.r1.z / V.r2.z ≤ dblEps then
        (false, point3D_in_cam1)
      else
        (true, v3smul (1 / 2)
          (v3add (v3add (v3smul (V.r0.z / V.r2.z) cam_ray1)
            (midCam2InCam1 cam2_from_cam1))
            (v3smul (V.r1.z / V.r2.z)
              (midRay2InCam1 cam2_from_cam1 cam_ray2))))

def m4zero : M4q := ⟨⟨0, 0, 0, 0⟩, ⟨0, 0, 0, 0⟩, ⟨0, 0, 0, 0⟩, ⟨0, 0, 0, 0⟩⟩

def v4add (u v : V4q) : V4q := ⟨u.a + v.a, u.b + v.b, u.c + v.c, u.d + v.d⟩

def m4add (p q : M4q) : M4q :=
  ⟨v4add p.r0 q.r0, v4add p.r1 q.r1, v4add p.r2 q.r2, v4add p.r3 q.r3⟩

def m34sub (p q : M34q) : M34q :=
  ⟨v4sub p.r0 q.r0, v4sub p.r1 q.r1, v4sub p.r2 q.r2⟩

/-- Row vector times 3×4 matrix. -/
def rowVecMulM34 (v : V3q) (m : M34q) : V4q :=
  ⟨v.x * m.r0.a + v.y * m.r1.a + v.z * m.r2.a,
   v.x * m.r0.b + v.y * m.r1.b + v.z * m.r2.b,
   v.x * m.r0.c + v.y * m.r1.c + v.z * m.r2.c,
   v.x * m.r0.d + v.y * m.r1.d + v.z * m.r2.d⟩

/-- Outer product of a 3-vector with a row 4-vector. -/
def outer3x4 (v : V3q) (r : V4q) : M34q :=
  ⟨v4smul v.x r, v4smul v.y r, v4smul v.z r⟩

/-- `term.transpose() * term` for a 3×4 `term`. -/
def m34TtM (t : M34q) : M4q :=
  let c0 : V3q := ⟨t.r0.a, t.r1.a, t.r2.a⟩
  let c1 : V3q := ⟨t.r0.b, t.r1.b, t.r2.b⟩
  let c2 : V3q := ⟨t.r0.c, t.r1.c, t.r2.c⟩
  let c3 : V3q := ⟨t.r0.d, t.r1.d, t.r2.d⟩
  ⟨⟨dot3 c0 c0, dot3 c0 c1, dot3 c0 c2, dot3 c0 c3⟩,
   ⟨dot3 c1 c0, dot3 c1 c1, dot3 c1 c2, dot3 c1 c3⟩,
   ⟨dot3 c2 c0, dot3 c2 c1, dot3 c2 c2, dot3 c2 c3⟩,
   ⟨dot3 c3 c0, dot3 c3 c1, dot3 c3 c2, dot3 c3 c3⟩⟩

/-- One summand of the accumulation loop (`triangulation.cc:116-121`):
`point = cam_points[i].homogeneous().normalized();
 term = cams_from_world[i] - point * point.transpose() * cams_from_world[i]`.
`normalize` abstracts `.normalized()` (irrational over `ℚ`). -/
def triangulateTerm (normalize : V3q → V3q) (cam : M34q) (p : V2q) : M34q :=
  let point := normalize ⟨p.x, p.y, 1⟩
  m34sub cam (outer3x4 point (rowVecMulM34 point cam))

/-- The accumulation loop `for (i = 0; i < cam_points.size(); i++)`,
with every element access performed through the checked `getElem?`; an
out-of-bounds access collapses the result to `none`. -/
def accumA (normalize : V3q → V3q) (cams_from_world : List M34q)
    (cam_points : List V2q) : Option M4q :=
  (List.range cam_points.length).foldl
    (fun acc i =>
      match acc, cams_from_world[i]?, cam_points[i]? with
      | some A, some cam, some p =>
        some (m4add A (m34TtM (triangulateTerm normalize cam p)))
      | _, _, _ => none)
    (some m4zero)

/-- `TriangulateMultiViewPoint` (`triangulation.cc:108-131`).
`THROW_CHECK_EQ(cams_from_world.size(), cam_points.size())` and
`THROW_CHECK_NOTNULL(xyz)` (lines 112-113) run before any computation
and are modelled as `Except.error`; `eig` abstracts the
`SelfAdjointEigenSolver` (consuming `eigenvectors()`; `none` models
`info() != Success`). -/
def TriangulateMultiViewPoint (eig : M4q → Option M4q)
    (normalize : V3q → V3q) (cams_from_world : List M34q)
    (cam_points : List V2q) (xyz : Option V3q) :
    Except String (Bool × V3q) :=
  if cams_from_world.length ≠ cam_points.length then
    Except.error "cams_from_world.size() does not equal cam_points.size()"
  else
    match xyz with
    | none => Except.error "xyz is null"
    | some xyz0 =>
      match accumA normalize cams_from_world cam_points with
      | none => Except.error "span access out of bounds"
      | some A =>
        match eig A with
        | none => (Except.ok (false, xyz0))
        | some Vecs =>
          if Vecs.r3.a = 0 then (Except.ok (false, xyz0))
          else
            (Except.ok (true,
              ⟨Vecs.r0.a / Vecs.r3.a, Vecs.r1.a / Vecs.r3.a,
               Vecs.r2.a / Vecs.r3.a⟩))

/-- `TriangulateOptimalPoint` (`triangulation.cc:133-157`).
`findOptimal` abstracts the pose decomposition, essential matrix and
`FindOptimalImageObservations` (all in other translation units); the
function then delegates to `TriangulatePoint`. -/
def TriangulateOptimalPoint (svdV : M4q → Option M4q)
    (findOptimal : M34q → M34q → V2q → V2q → V2q × V2q)
    (cam1_from_world_mat cam2_from_world_mat : M34q)
    (cam_point1 cam_point2 : V2q) (xyz : V3q) : Bool × V3q :=
  let op := findOptimal cam1_from_world_mat cam2_from_world_mat
    cam_point1 cam_point2
  TriangulatePoint svdV cam1_from_world_mat cam2_from_world_mat
    op.1 op.2 xyz

/-! ## C9 / C10 theorems -/

/-- C9: each closed-form triangulation function either returns `true`
together with exactly one written 3-D point, or returns `false` with the
output parameter untouched (equal to its prior value), for every outcome
of the abstracted numeric kernels; the multi-view variant additionally
may throw (model: `Except.error`) on its precondition checks, but its
`bool` protocol on the non-throwing path is the same. -/
theorem C9_triangulation_write_protocol :
    (∀ (svdV : M4q → Option M4q) (c1 c2 : M34q) (p1 p2 : V2q) (xyz0 : V3q),
      (∃ p, TriangulatePoint svdV c1 c2 p1 p2 xyz0 = (true, p)) ∨
        TriangulatePoint svdV c1 c2 p1 p2 xyz0 = (false, xyz0)) ∧
    (∀ (svdV3 : M3q → Option M3q) (r : Rigid3dq) (ray1 ray2 xyz0 : V3q),
      (∃ p, TriangulateMidPoint svdV3 r ray1 ray2 xyz0 = (true, p)) ∨
        TriangulateMidPoint svdV3 r ray1 ray2 xyz0 = (false, xyz0)) ∧
    (∀ (eig : M4q → Option M4q) (normalize : V3q → V3q)
        (cams : List M34q) (pts : List V2q) (xyz : Option V3q),
      (∃ e, TriangulateMultiViewPoint eig normalize cams pts xyz =
          Except.error e) ∨
      (∃ p, TriangulateMultiViewPoint eig normalize cams pts xyz =
          Except.ok (true, p)) ∨
      (∃ xyz0, xyz = some xyz0 ∧
        TriangulateMultiViewPoint eig normalize cams pts xyz =
          Except.ok (false, xyz0))) ∧
    (∀ (svdV : M4q → Option M4q)
        (findOptimal : M34q → M34q → V2q → V2q → V2q × V2q)
        (c1 c2 : M34q) (p1 p2 : V2q) (xyz0 : V3q),
      (∃ p, TriangulateOptimalPoint svdV findOptimal c1 c2 p1 p2 xyz0 =
          (true, p)) ∨
        TriangulateOptimalPoint svdV findOptimal c1 c2 p1 p2 xyz0 =
          (false, xyz0)) := by
  have hpoint : ∀ (svdV : M4q → Option M4q) (c1 c2 : M34q) (p1 p2 : V2q)
      (xyz0 : V3q),
      (∃ p, TriangulatePoint svdV c1 c2 p1 p2 xyz0 = (true, p)) ∨
        TriangulatePoint svdV c1 c2 p1 p2 xyz0 = (false, xyz0) := by
    intro svdV c1 c2 p1 p2 xyz0
    unfold TriangulatePoint
    split
    · exact Or.inr rfl
    · split
      · exact Or.inr rfl
      · exact Or.inl ⟨_, rfl⟩
  refine ⟨hpoint, ?_, ?_, ?_⟩
  · intro svdV3 r ray1 ray2 xyz0
    unfold TriangulateMidPoint
    split
    · exact Or.inr rfl
    · split
      · exact Or.inr rfl
      · split
        · exact Or.inr rfl
        · exact Or.inl ⟨_, rfl⟩
  · intro eig normalize cams pts xyz
    unfold TriangulateMultiViewPoint
    split
    · exact Or.inl ⟨_, rfl⟩
    · split
      · exact Or.inl ⟨_, rfl⟩
      · rename_i xyz0 _
        split
        · exact Or.inl ⟨_, rfl⟩
        · split
          · exact Or.inr (Or.inr ⟨_, rfl, rfl⟩)
          · split
            · exact Or.inr (Or.inr ⟨_, rfl, rfl⟩)
            · exact Or.inr (Or.inl ⟨_, rfl⟩)
  · intro svdV findOptimal c1 c2 p1 p2 xyz0
    unfold TriangulateOptimalPoint
    exact hpoint svdV c1 c2 _ _ xyz0

theorem accumA_isSome (normalize : V3q → V3q) (cams : List M34q)
    (pts : List V2q) (h : cams.length = pts.length) :
    ∃ A, accumA normalize cams pts = some A := by
  unfold accumA
  have key : ∀ (l : List ℕ), (∀ i ∈ l, i < pts.length) → ∀ A0 : M4q,
      ∃ A, l.foldl
        (fun acc i =>
          match acc, cams[i]?, pts[i]? with
          | some A, some cam, some p =>
            some (m4add A (m34TtM (triangulateTerm normalize cam p)))
          | _, _, _ => none)
        (some A0) = some A := by
    intro l
    induction l with
    | nil => intro _ A0; exact ⟨A0, rfl⟩
    | cons i rest ih =>
      intro hl A0
      have hi : i < pts.length := hl i (List.mem_cons_self i rest)
      have hic : i < cams.length := by omega
      have h1 : cams[i]? = some cams[i] := List.getElem?_eq_getElem hic
      have h2 : pts[i]? = some pts[i] := List.getElem?_eq_getElem hi
      simp only [List.foldl_cons, h1, h2]
      exact ih (fun j hj => hl j (List.mem_cons_of_mem i hj)) _
  exact key (List.range pts.length) (fun i hi => List.mem_range.mp hi) m4zero

/-- C10: `TriangulateMultiViewPoint` throws (before any computation, for
every abstracted-kernel argument) exactly when the spans have different
sizes or the output pointer is null; under the precondition (equal sizes
and a non-null output) those check branches are never taken, every
element access of the accumulation loop stays in bounds (the checked
accumulation never collapses to `none`), and the call returns an
`Except.ok` result. -/
theorem C10_multiview_guards :
    (∀ (eig : M4q → Option M4q) (normalize : V3q → V3q)
        (cams : List M34q) (pts : List V2q) (xyz : Option V3q),
      cams.length ≠ pts.length →
      TriangulateMultiViewPoint eig normalize cams pts xyz =
        Except.error "cams_from_world.size() does not equal cam_points.size()") ∧
    (∀ (eig : M4q → Option M4q) (normalize : V3q → V3q)
        (cams : List M34q) (pts : List V2q),
      cams.length = pts.length →
      TriangulateMultiViewPoint eig normalize cams pts none =
        Except.error "xyz is null") ∧
    (∀ (normalize : V3q → V3q) (cams : List M34q) (pts : List V2q),
      cams.length = pts.length →
      ∃ A, accumA normalize cams pts = some A) ∧
    (∀ (eig : M4q → Option M4q) (normalize : V3q → V3q)
        (cams : List M34q) (pts : List V2q) (xyz0 : V3q),
      cams.length = pts.length →
      ∃ r, TriangulateMultiViewPoint eig normalize cams pts (some xyz0) =
        Except.ok r) := by
  refine ⟨?_, ?_, fun normalize cams pts h => accumA_isSome normalize cams pts h, ?_⟩
  · intro eig normalize cams pts xyz hne
    unfold TriangulateMultiViewPoint
    rw [if_pos hne]
  · intro eig normalize cams pts h
    unfold TriangulateMultiViewPoint
    rw [if_neg (by omega)]
  · intro eig normalize cams pts xyz0 h
    unfold TriangulateMultiViewPoint
    rw [if_neg (by omega)]
    obtain ⟨A, hA⟩ := accumA_isSome normalize cams pts h
    rw [hA]
    dsimp only
    rcases heig : eig A with _ | Vecs
    · exact ⟨_, rfl⟩
    · dsimp only
      by_cases hz : Vecs.r3.a = 0
      · rw [if_pos hz]
        exact ⟨_, rfl⟩
      · rw [if_neg hz]
        exact ⟨_, rfl⟩

/-- Witness for C10 at concrete spans: a size mismatch throws; equal
sizes (here two empty spans) with a non-null output return `ok`, and
the accumulation stays in bounds. -/
theorem C10_multiview_guards_witness :
    (([] : List M34q).length ≠ ([⟨0, 0⟩] : List V2q).length ∧
      TriangulateMultiViewPoint (fun _ => none) id []
          ([⟨0, 0⟩] : List V2q) none =
        Except.error "cams_from_world.size() does not equal cam_points.size()") ∧
    (([] : List M34q).length = ([] : List V2q).length ∧
      (∃ A, accumA id ([] : List M34q) ([] : List V2q) = some A) ∧
      ∃ r, TriangulateMultiViewPoint (fun _ => none) id [] []
          (some ⟨0, 0, 0⟩) = Except.ok r) :=
  ⟨⟨by decide,
      C10_multiview_guards.1 (fun _ => none) id [] [⟨0, 0⟩] none (by decide)⟩,
    ⟨rfl, C10_multiview_guards.2.2.1 id [] [] rfl,
      C10_multiview_guards.2.2.2 (fun _ => none) id [] [] ⟨0, 0, 0⟩ rfl⟩⟩
